import Mathlib

/-!
Verification development for the steinernetpy repository.

The repository's core solver (class `SteinerNet`, method `steinertree` with
`method='EXA'`) is exercised by `example_parallel_usage.py` and
`test_parallel_performance.py`.  The solver itself is modelled here from the
specification: a weighted undirected graph, a terminal set, exhaustive
enumeration of candidate Steiner-point subsets indexed by a bitmask range,
a tree builder scoring each subset by a minimum spanning tree of the
shortest-path auxiliary graph, and a parallel coordinator that slices the
subset index range into contiguous partitions and reduces worker-local
minima.  Weights are rationals; "infinity" is `WithTop ℚ`.
-/

namespace SteinerNet

/-- Extended non-negative-ish weights: rationals plus infinity. -/
abbrev Qinf : Type := WithTop ℚ

/-- Vertices are opaque identifiers; we use naturals. -/
abbrev V : Type := ℕ

/-- Modelled from the spec: the weighted-graph view (§3, §4.1) supplied by the
caller (in the examples, a `networkx` graph): a vertex list and a list of
undirected weighted edges. -/
structure WGraph where
  verts : List V
  edges : List (V × V × ℚ)
deriving DecidableEq

/-- Weight lookup for the undirected edge between `u` and `v`: first matching
edge in the edge list, in either orientation. -/
def ewt (g : WGraph) (u v : V) : Option ℚ :=
  (g.edges.find? (fun e => ((e.1 == u) && (e.2.1 == v)) || ((e.1 == v) && (e.2.1 == u)))).map
    (fun e => e.2.2)

/-- Adjacency test. -/
def hasEdge (g : WGraph) (u v : V) : Bool :=
  (ewt g u v).isSome

/-! ### First-minimum selection

Modelled from the spec (§4.4): the running best is replaced only when a new
candidate's key is strictly less, so the overall selection is the first
minimum in enumeration order.  The same combinator is used for shortest
paths, spanning structures, and the subset scan. -/

variable {α : Type} {β : Type}

/-- One §4.4 transition step: replace the running best iff strictly smaller. -/
def stepMin [LinearOrder β] (key : α → β) (acc : Option α) (x : α) : Option α :=
  match acc with
  | none => some x
  | some a => if key x < key a then some x else some a

/-- First minimum of a list under `key` (ties keep the earlier element). -/
def firstMinBy [LinearOrder β] (key : α → β) (l : List α) : Option α :=
  l.foldl (stepMin key) none

/-- Modelled from the spec (§4.5): the reduction of two partial results,
keeping the left result unless the right one is strictly better. -/
def mergeBest [LinearOrder β] (key : α → β) : Option α → Option α → Option α
  | none, b => b
  | some a, none => some a
  | some a, some b => if key b < key a then some b else some a

/-! ### Connectivity over an undirected edge list

The graph model (§4.1) must detect a disconnected graph, and the spanning
structures of §4.3 must connect their vertex subset.  `grow` saturates a
reached-vertex list along the edge list; `Reach` is the corresponding
inductive reachability relation. -/

/-- Saturate the reached list `acc` along `pool`: repeatedly pick the first
edge with exactly one endpoint reached and add the other endpoint. -/
def grow : ℕ → List (V × V) → List V → List V
  | 0, _, acc => acc
  | fuel + 1, pool, acc =>
    match pool.find? (fun e =>
        (decide (e.1 ∈ acc) && !(decide (e.2 ∈ acc))) ||
        (decide (e.2 ∈ acc) && !(decide (e.1 ∈ acc)))) with
    | some e => grow fuel (pool.erase e) ((if e.1 ∈ acc then e.2 else e.1) :: acc)
    | none => acc

/-- Undirected reachability along an edge list. -/
inductive Reach (es : List (V × V)) : V → V → Prop
  | refl (v : V) : Reach es v v
  | step {u v w : V} : Reach es u v → ((v, w) ∈ es ∨ (w, v) ∈ es) → Reach es u w

/-- Decidable reachability. -/
def reachB (es : List (V × V)) (u v : V) : Bool :=
  decide (v ∈ grow es.length es [u])

/-- Modelled from the spec (§4.1, §4.3): the edge list `es` connects the
vertex list `S` when every vertex of `S` is reachable from its first
vertex. -/
def connectsB (es : List (V × V)) (S : List V) : Bool :=
  match S with
  | [] => true
  | h :: t => (h :: t).all (fun v => reachB es h v)

/-- Extract a vertex-disjoint (simple) path witnessing reachability. -/
def cutAt (w : V) : List V → List V
  | [] => []
  | a :: rest => if a = w then [w] else a :: cutAt w rest

/-! ### Simple paths and shortest-path distance

Modelled from the spec (§4.3): pairwise weights of the auxiliary graph are
shortest-path distances in the original graph.  A simple path is a
duplicate-free vertex sequence chained by edges; the distance is the first
minimum-weight simple path in a fixed deterministic enumeration. -/

/-- Weight of a single step (⊤ when the edge is absent). -/
def edgeW (g : WGraph) (a b : V) : Qinf :=
  match ewt g a b with
  | some w => (w : Qinf)
  | none => ⊤

/-- Computable edge-chain check along a vertex sequence. -/
def chainB (g : WGraph) : List V → Bool
  | [] => true
  | a :: rest =>
    (match rest with
     | [] => true
     | b :: _ => hasEdge g a b) && chainB g rest

/-- A simple path from `u` to `v`. -/
def IsPath (g : WGraph) (u v : V) (p : List V) : Prop :=
  p.head? = some u ∧ p.getLast? = some v ∧ p.Nodup ∧ chainB g p = true

instance instDecIsPath (g : WGraph) (u v : V) (p : List V) : Decidable (IsPath g u v p) := by
  unfold IsPath
  infer_instance

/-- All ways to insert `a` into a list. -/
def insertAll (a : V) : List V → List (List V)
  | [] => [[a]]
  | b :: l => (a :: b :: l) :: (insertAll a l).map (fun p => b :: p)

/-- All permutations of a list (kernel-computable enumeration). -/
def perms : List V → List (List V)
  | [] => [[]]
  | a :: l => (perms l).flatMap (insertAll a)

/-- Deterministic enumeration of every simple path from `u` to `v`. -/
def allPaths (g : WGraph) (u v : V) : List (List V) :=
  (g.verts.sublists.flatMap perms).filter (fun p => decide (IsPath g u v p))

def pathWeight (g : WGraph) : List V → Qinf
  | [] => 0
  | a :: rest =>
    (match rest with
     | [] => (0 : Qinf)
     | b :: _ => edgeW g a b) + pathWeight g rest

/-- The chosen shortest path: first minimum-weight member of the enumeration. -/
def spath (g : WGraph) (u v : V) : Option (List V) :=
  firstMinBy (pathWeight g) (allPaths g u v)

/-- Shortest-path distance (⊤ when no path exists). -/
def dist (g : WGraph) (u v : V) : Qinf :=
  match spath g u v with
  | some p => pathWeight g p
  | none => ⊤

/-! ### Minimum spanning structures (§4.3)

The auxiliary complete graph on a vertex list `S` has one pair per unordered
vertex pair; the tree builder selects the first lexicographically minimal
(total weight, then edge count) edge subset that connects `S`. -/

/-- Edges of the complete graph on `S`: pairs `(a, b)` with `a` before `b`. -/
def pairsOf : List V → List (V × V)
  | [] => []
  | a :: rest => rest.map (fun b => (a, b)) ++ pairsOf rest

/-- Modelled from the spec (§4.3): the first minimum spanning structure on
`S` drawn from the edge pool, keyed by (total weight, edge count). -/
def bestSpan {α : Type} (wt : α → Qinf) (endp : α → V × V) (pool : List α) (S : List V) :
    Option (List α) :=
  firstMinBy (fun es => toLex ((es.map wt).sum, es.length))
    (pool.sublists.filter (fun es => connectsB (es.map endp) S))

/-- Modelled from the spec (§4.3): the MST of the complete auxiliary graph
over `S`, with shortest-path distances as pairwise weights. -/
def mst (g : WGraph) (S : List V) : Option (List (V × V)) :=
  bestSpan (fun e => dist g e.1 e.2) id (pairsOf S) S

/-- Modelled from the spec (§4.3): the score of candidate subset `S` is the
total weight of its auxiliary MST (⊤ when no spanning structure exists). -/
def score (g : WGraph) (S : List V) : Qinf :=
  match mst g S with
  | some es => (es.map (fun e => dist g e.1 e.2)).sum
  | none => ⊤

/-! ### Candidate enumeration (§4.2) and input validation (§4.1, §6) -/

/-- Modelled from the spec (§4.2): select elements of `l` by the bits of `i`
(lexicographic subset enumeration by bitmask). -/
def selectBits : ℕ → List V → List V
  | _, [] => []
  | i, a :: l => if i % 2 = 1 then a :: selectBits (i / 2) l else selectBits (i / 2) l

/-- Modelled from the spec (§4.2): the non-terminal vertices, in vertex order. -/
def nts (g : WGraph) (T : List V) : List V :=
  g.verts.filter (fun v => decide (v ∉ T))

/-- Modelled from the spec (§4.2): candidate subset number `i`: terminals
plus the bitmask-selected non-terminals, listed in vertex order. -/
def candSet (g : WGraph) (T : List V) (i : ℕ) : List V :=
  g.verts.filter (fun v => decide (v ∈ T) || decide (v ∈ selectBits i (nts g T)))

/-- Modelled from the spec (§4.2): the size of the candidate-subset space. -/
def subsetCount (g : WGraph) (T : List V) : ℕ := 2 ^ (nts g T).length

/-- Modelled from the spec (§4.1): graph well-formedness: duplicate-free
vertex list, edges between listed vertices, no self-loops, non-negative
weights, no conflicting duplicate edges, and a connected graph. -/
def validGraphB (g : WGraph) : Bool :=
  decide (g.verts.Nodup) &&
  g.edges.all (fun e => decide (e.1 ∈ g.verts) && decide (e.2.1 ∈ g.verts) &&
    decide (e.1 ≠ e.2.1) && decide (0 ≤ e.2.2)) &&
  g.edges.all (fun e => g.edges.all (fun f =>
    !(decide ((e.1 = f.1 ∧ e.2.1 = f.2.1) ∨ (e.1 = f.2.1 ∧ e.2.1 = f.1)) &&
      decide (e.2.2 ≠ f.2.2)))) &&
  connectsB (g.edges.map (fun e => (e.1, e.2.1))) g.verts

/-- Modelled from the spec (§6): terminal validation: at least two terminals,
each present in the graph. -/
def validTermsB (g : WGraph) (T : List V) : Bool :=
  decide (2 ≤ T.length) && T.all (fun t => decide (t ∈ g.verts))

/-! ### The parallel coordinator's index partition (§4.5) -/

/-- Modelled from the spec (§4.5): slice `[start, start+total)` into `n`
contiguous near-equal ranges (ceiling-sized head chunk, recursively). -/
def sliceIdx : ℕ → ℕ → ℕ → List (List ℕ)
  | _, _, 0 => []
  | start, total, 1 => [List.range' start total]
  | start, total, n + 2 =>
    List.range' start ((total + (n + 1)) / (n + 2)) ::
      sliceIdx (start + (total + (n + 1)) / (n + 2))
        (total - (total + (n + 1)) / (n + 2)) (n + 1)

/-! ### The solver (§4.4–§4.5, §6) -/

/-- Modelled from the spec (§4.4): sequential scan: first index of minimal
score over the whole candidate range. -/
def bestIdxSeq (g : WGraph) (T : List V) : Option ℕ :=
  firstMinBy (fun i => score g (candSet g T i)) (List.range (subsetCount g T))

/-- Modelled from the spec (§4.5): parallel scan: one contiguous slice per
worker, local first-minimum per worker, results folded in worker order. -/
def bestIdxPar (g : WGraph) (T : List V) (nproc : ℕ) : Option ℕ :=
  (sliceIdx 0 (subsetCount g T) (max 1 nproc)).foldl
    (fun acc part => mergeBest (fun i => score g (candSet g T i)) acc
      (firstMinBy (fun i => score g (candSet g T i)) part))
    none

/-- Edges of one path as weighted edges of the original graph. -/
def pathEdges (g : WGraph) : List V → List (V × V × ℚ)
  | a :: b :: rest => (a, b, (ewt g a b).getD 0) :: pathEdges g (b :: rest)
  | _ => []

/-- Modelled from the spec (§4.3): expand each auxiliary MST edge into its
chosen shortest path in the original graph (each edge kept once). -/
def unionEdges (g : WGraph) (mstEdges : List (V × V)) : List (V × V × ℚ) :=
  (mstEdges.flatMap (fun e =>
    match spath g e.1 e.2 with
    | some p => pathEdges g p
    | none => [])).dedup

/-- Vertex set of the final tree: terminals plus expansion vertices, in
graph vertex order. -/
def treeVerts (g : WGraph) (T : List V) (es : List (V × V × ℚ)) : List V :=
  g.verts.filter (fun v => decide (v ∈ T) || es.any (fun e => (e.1 == v) || (e.2.1 == v)))

/-- Modelled from the spec (§3, §4.3): the tree emitted for the winning
subset: a minimum spanning structure of the expanded shortest-path union. -/
def buildTree (g : WGraph) (T : List V) (i : ℕ) : List (V × V × ℚ) :=
  match mst g (candSet g T i) with
  | some es =>
    (bestSpan (fun e => ((e.2.2 : ℚ) : Qinf)) (fun e => (e.1, e.2.1))
      (unionEdges g es) (treeVerts g T (unionEdges g es))).getD []
  | none => []

/-- The §4.4 search result: best tree found and its recorded weight. -/
structure SResult where
  tree : List (V × V × ℚ)
  weight : Qinf
deriving DecidableEq

/-- Modelled from the spec (§6, §7): the error taxonomy of the solve
operation (worker failure is outside this sequentially-refined model). -/
inductive SError
  | invalidGraph
  | invalidTerminals
deriving DecidableEq

instance instDecEqExceptSR : DecidableEq (Except SError SResult) := fun a b =>
  match a, b with
  | .error x, .error y =>
    if h : x = y then .isTrue (by rw [h]) else .isFalse (fun hc => h (by injection hc))
  | .ok x, .ok y =>
    if h : x = y then .isTrue (by rw [h]) else .isFalse (fun hc => h (by injection hc))
  | .error _, .ok _ => .isFalse (fun hc => by injection hc)
  | .ok _, .error _ => .isFalse (fun hc => by injection hc)

/-- Modelled from the spec (§4.4): emit the result for the winning index. -/
def solveCore (g : WGraph) (T : List V) (idx : Option ℕ) : SResult :=
  match idx with
  | some i => { tree := buildTree g T i, weight := score g (candSet g T i) }
  | none => { tree := [], weight := ⊤ }

/-- Modelled from the spec (§6): the core solve operation
(`SteinerNet.steinertree` with `method='EXA'`): validate the graph, then the
terminals, then scan sequentially or in parallel. -/
def steinertree (g : WGraph) (T : List V) (parallel : Bool) (nproc : ℕ) :
    Except SError SResult :=
  if validGraphB g = true then
    if validTermsB g T = true then
      .ok (solveCore g T (if parallel then bestIdxPar g T nproc else bestIdxSeq g T))
    else .error .invalidTerminals
  else .error .invalidGraph

/-- Orient a tree edge as an auxiliary pair of `S`. -/
def normTo (S : List V) (e : V × V × ℚ) : V × V :=
  if (e.1, e.2.1) ∈ pairsOf S then (e.1, e.2.1) else (e.2.1, e.1)

/-! ### Adding a heavy edge (§8 monotonicity) -/

/-- Modelled from the spec (§8): the graph with one additional edge. -/
def addEdge (g : WGraph) (a b : V) (w : ℚ) : WGraph :=
  { verts := g.verts, edges := g.edges ++ [(a, b, w)] }

/-! ### The benchmark's random-graph generator (`test_parallel_performance.py`) -/

/-- An unweighted random-graph draw, as produced by `networkx.gnp_random_graph`:
vertices `0..n-1` and an edge list. -/
structure UGraph where
  n : ℕ
  uedges : List (ℕ × ℕ)

/-- Translated from `generate_random_graph` in `test_parallel_performance.py`:
draw random graphs until one is connected (`gs` is the stream of draws from
`networkx.gnp_random_graph`, connectivity is `networkx.is_connected`, and
`fuel` bounds the source's unbounded `while` loop), then give each edge one
draw of `w` (`random.uniform(weight_range[0], weight_range[1])` in the
source). -/
def generate_random_graph (gs : ℕ → UGraph) (w : ℕ → ℕ → ℚ) (fuel : ℕ) : Option WGraph :=
  match (List.range fuel).find? (fun k =>
      connectsB (gs k).uedges (List.range (gs k).n)) with
  | some k =>
    some { verts := List.range (gs k).n,
           edges := (gs k).uedges.enum.map (fun q => (q.2.1, q.2.2, w k q.1)) }
  | none => none

/-- The 4-vertex cycle of the spec's concrete scenario (§8): A=0, B=1, C=2,
D=3 with edges A–B(1), B–C(1), C–D(1), D–A(1) and A–C(3). -/
def cycleGraph : WGraph :=
  { verts := [0, 1, 2, 3],
    edges := [(0, 1, 1), (1, 2, 1), (2, 3, 1), (3, 0, 1), (0, 2, 3)] }

/-- A small triangle used to exercise the solver on concrete runs. -/
def triGraph : WGraph :=
  { verts := [0, 1, 2], edges := [(0, 1, 1), (1, 2, 1), (0, 2, 3)] }

/-- A two-edge path graph used to exercise the heavy-edge scenario. -/
def pathGraph : WGraph :=
  { verts := [0, 1, 2], edges := [(0, 1, 1), (1, 2, 1)] }

/-- A malformed graph (self-loop) used to exercise input validation. -/
def loopGraph : WGraph :=
  { verts := [0, 1], edges := [(0, 0, 1), (0, 1, 1)] }

theorem ewt_symm (g : WGraph) (u v : V) : ewt g u v = ewt g v u := by
  have h : (fun (e : V × V × ℚ) => ((e.1 == u) && (e.2.1 == v)) || ((e.1 == v) && (e.2.1 == u)))
      = (fun (e : V × V × ℚ) => ((e.1 == v) && (e.2.1 == u)) || ((e.1 == u) && (e.2.1 == v))) := by
    funext e
    exact Bool.or_comm _ _
  unfold ewt
  rw [h]

theorem stepMin_eq_mergeBest [LinearOrder β] (key : α → β) (acc : Option α) (x : α) :
    stepMin key acc x = mergeBest key acc (some x) := by
  cases acc <;> rfl

theorem mergeBest_assoc [LinearOrder β] (key : α → β) (a b c : Option α) :
    mergeBest key (mergeBest key a b) c = mergeBest key a (mergeBest key b c) := by
  cases a with
  | none => rfl
  | some a =>
    cases b with
    | none => rfl
    | some b =>
      by_cases hba : key b < key a
      · cases c with
        | none => simp [mergeBest, hba]
        | some c =>
          by_cases hcb : key c < key b
          · simp [mergeBest, hba, hcb, lt_trans hcb hba]
          · simp [mergeBest, hba, hcb]
      · cases c with
        | none => simp [mergeBest, hba]
        | some c =>
          by_cases hcb : key c < key b
          · simp [mergeBest, hba, hcb]
          · have hca : ¬ key c < key a :=
              not_lt.mpr (le_trans (not_lt.mp hba) (not_lt.mp hcb))
            simp [mergeBest, hba, hcb, hca]

theorem foldl_stepMin_acc [LinearOrder β] (key : α → β) (l : List α) :
    ∀ acc : Option α, l.foldl (stepMin key) acc = mergeBest key acc (firstMinBy key l) := by
  induction l with
  | nil => intro acc; cases acc <;> rfl
  | cons x l ih =>
    intro acc
    have h1 : (x :: l).foldl (stepMin key) acc = l.foldl (stepMin key) (stepMin key acc x) := rfl
    rw [h1, ih (stepMin key acc x), stepMin_eq_mergeBest, mergeBest_assoc]
    have h2 : firstMinBy key (x :: l) = l.foldl (stepMin key) (some x) := rfl
    rw [h2, ih (some x)]

theorem firstMinBy_append [LinearOrder β] (key : α → β) (l₁ l₂ : List α) :
    firstMinBy key (l₁ ++ l₂) = mergeBest key (firstMinBy key l₁) (firstMinBy key l₂) := by
  unfold firstMinBy
  rw [List.foldl_append]
  exact foldl_stepMin_acc key l₂ (firstMinBy key l₁)

theorem foldl_stepMin_mem [LinearOrder β] (key : α → β) :
    ∀ (l : List α) (acc : Option α) (x : α), l.foldl (stepMin key) acc = some x →
      acc = some x ∨ x ∈ l := by
  intro l
  induction l with
  | nil => intro acc x h'; exact Or.inl h'
  | cons y l ih =>
    intro acc x h'
    have h1 : (y :: l).foldl (stepMin key) acc = l.foldl (stepMin key) (stepMin key acc y) := rfl
    rw [h1] at h'
    rcases ih (stepMin key acc y) x h' with h2 | h2
    · cases acc with
      | none =>
        simp only [stepMin] at h2
        right
        have hxy : y = x := Option.some_inj.mp h2
        subst hxy
        exact List.mem_cons_self _ _
      | some a =>
        simp only [stepMin] at h2
        split at h2
        · right
          have hxy : y = x := Option.some_inj.mp h2
          subst hxy
          exact List.mem_cons_self _ _
        · left; exact h2
    · right; exact List.mem_cons_of_mem _ h2

theorem firstMinBy_mem [LinearOrder β] (key : α → β) (l : List α) (x : α)
    (h : firstMinBy key l = some x) : x ∈ l := by
  rcases foldl_stepMin_mem key l none x h with h' | h'
  · exact absurd h' (by simp)
  · exact h'

theorem foldl_stepMin_le [LinearOrder β] (key : α → β) :
    ∀ (l : List α) (acc : Option α) (x : α), l.foldl (stepMin key) acc = some x →
      (∀ a, acc = some a → key x ≤ key a) ∧ (∀ y ∈ l, key x ≤ key y) := by
  intro l
  induction l with
  | nil =>
    intro acc x h'
    refine ⟨fun a ha => ?_, fun y hy => absurd hy (by simp)⟩
    simp only [List.foldl_nil] at h'
    rw [ha] at h'
    rw [Option.some_inj.mp h']
  | cons y l ih =>
    intro acc x h'
    have h1 : (y :: l).foldl (stepMin key) acc = l.foldl (stepMin key) (stepMin key acc y) := rfl
    rw [h1] at h'
    have H := ih (stepMin key acc y) x h'
    have hy : key x ≤ key y := by
      cases acc with
      | none => exact H.1 y rfl
      | some a =>
        simp only [stepMin] at H
        by_cases hlt : key y < key a
        · simp only [if_pos hlt] at H
          exact H.1 y rfl
        · simp only [if_neg hlt] at H
          exact le_trans (H.1 a rfl) (le_of_not_lt hlt)
    refine ⟨fun a ha => ?_, fun z hz => ?_⟩
    · cases acc with
      | none => simp at ha
      | some a' =>
        have ha' : a' = a := Option.some_inj.mp ha
        subst ha'
        simp only [stepMin] at H
        by_cases hlt : key y < key a'
        · simp only [if_pos hlt] at H
          exact le_trans hy (le_of_lt hlt)
        · simp only [if_neg hlt] at H
          exact H.1 a' rfl
    · rcases List.mem_cons.mp hz with hz | hz
      · rw [hz]; exact hy
      · exact H.2 z hz

theorem firstMinBy_le [LinearOrder β] (key : α → β) (l : List α) (x : α)
    (h : firstMinBy key l = some x) : ∀ y ∈ l, key x ≤ key y :=
  (foldl_stepMin_le key l none x h).2

theorem firstMinBy_isSome [LinearOrder β] (key : α → β) (l : List α) (h : l ≠ []) :
    (firstMinBy key l).isSome := by
  cases l with
  | nil => exact absurd rfl h
  | cons x l =>
    have h1 : firstMinBy key (x :: l) = l.foldl (stepMin key) (some x) := rfl
    rw [h1, foldl_stepMin_acc]
    cases firstMinBy key l with
    | none => rfl
    | some b =>
      simp only [mergeBest]
      split <;> rfl

theorem firstMinBy_flatten [LinearOrder β] (key : α → β) (ls : List (List α)) :
    firstMinBy key ls.flatten =
      ls.foldl (fun acc part => mergeBest key acc (firstMinBy key part)) none := by
  suffices H : ∀ acc : Option α,
      ls.foldl (fun acc part => mergeBest key acc (firstMinBy key part)) acc =
        mergeBest key acc (firstMinBy key ls.flatten) by
    rw [H none]; rfl
  induction ls with
  | nil => intro acc; cases acc <;> rfl
  | cons p ls ih =>
    intro acc
    have h1 : (p :: ls).flatten = p ++ ls.flatten := rfl
    rw [List.foldl_cons, ih, h1, firstMinBy_append, mergeBest_assoc]

theorem Reach.trans {es : List (V × V)} {u v w : V}
    (h1 : Reach es u v) (h2 : Reach es v w) : Reach es u w := by
  induction h2 with
  | refl => exact h1
  | step _ he ih => exact Reach.step ih he

theorem Reach.symm {es : List (V × V)} {u v : V} (h : Reach es u v) : Reach es v u := by
  induction h with
  | refl => exact Reach.refl _
  | step _ he ih =>
    exact Reach.trans (Reach.step (Reach.refl _) he.symm) ih

theorem Reach.mono {es es' : List (V × V)} {u v : V}
    (hsub : ∀ e ∈ es, e ∈ es') (h : Reach es u v) : Reach es' u v := by
  induction h with
  | refl => exact Reach.refl _
  | step _ he ih =>
    refine Reach.step ih ?_
    rcases he with he | he
    · exact Or.inl (hsub _ he)
    · exact Or.inr (hsub _ he)

/-- Reachability depends only on unordered edge membership. -/
theorem Reach.of_unordered {es es' : List (V × V)} {u v : V}
    (hiff : ∀ a b : V, ((a, b) ∈ es ∨ (b, a) ∈ es) → ((a, b) ∈ es' ∨ (b, a) ∈ es'))
    (h : Reach es u v) : Reach es' u v := by
  induction h with
  | refl => exact Reach.refl _
  | step _ he ih => exact Reach.step ih (hiff _ _ he)

theorem Reach.incident {es : List (V × V)} {u v : V} (h : Reach es u v) (hne : u ≠ v) :
    ∃ e ∈ es, e.1 = v ∨ e.2 = v := by
  induction h with
  | refl => exact absurd rfl hne
  | step _ he _ =>
    rcases he with he | he
    · exact ⟨_, he, Or.inr rfl⟩
    · exact ⟨_, he, Or.inl rfl⟩

theorem grow_acc_subset : ∀ (fuel : ℕ) (pool : List (V × V)) (acc : List V),
    acc ⊆ grow fuel pool acc := by
  intro fuel
  induction fuel with
  | zero => intro pool acc; exact fun x hx => hx
  | succ fuel ih =>
    intro pool acc
    unfold grow
    cases hf : pool.find? (fun e =>
        (decide (e.1 ∈ acc) && !(decide (e.2 ∈ acc))) ||
        (decide (e.2 ∈ acc) && !(decide (e.1 ∈ acc)))) with
    | none => exact fun x hx => hx
    | some e =>
      intro x hx
      exact ih (pool.erase e) _ (List.mem_cons_of_mem _ hx)

theorem grow_sound : ∀ (fuel : ℕ) (pool : List (V × V)) (acc : List V),
    ∀ x ∈ grow fuel pool acc, ∃ a ∈ acc, Reach pool a x := by
  intro fuel
  induction fuel with
  | zero => intro pool acc x hx; exact ⟨x, hx, Reach.refl x⟩
  | succ fuel ih =>
    intro pool acc x hx
    unfold grow at hx
    revert hx
    cases hf : pool.find? (fun e =>
        (decide (e.1 ∈ acc) && !(decide (e.2 ∈ acc))) ||
        (decide (e.2 ∈ acc) && !(decide (e.1 ∈ acc)))) with
    | none => intro hx; exact ⟨x, hx, Reach.refl x⟩
    | some e =>
      intro hx
      have hmem : e ∈ pool := List.mem_of_find?_eq_some hf
      have hpred := List.find?_some hf
      have hone : (e.1 ∈ acc ∧ e.2 ∉ acc) ∨ (e.2 ∈ acc ∧ e.1 ∉ acc) := by
        simp only [Bool.or_eq_true, Bool.and_eq_true, Bool.not_eq_true',
          decide_eq_true_eq, decide_eq_false_iff_not] at hpred
        exact hpred
      rcases ih (pool.erase e) _ x hx with ⟨a, ha, hr⟩
      have hr' : Reach pool a x := Reach.mono (fun f hf' => (pool.erase_subset e) hf') hr
      rcases List.mem_cons.mp ha with ha | ha
      · -- the new vertex: reachable from an old one by the edge e
        rcases hone with ⟨h1, h2⟩ | ⟨h1, h2⟩
        · refine ⟨e.1, h1, ?_⟩
          subst ha
          have : Reach pool e.1 (if e.1 ∈ acc then e.2 else e.1) := by
            rw [if_pos h1]
            exact Reach.step (Reach.refl _) (Or.inl hmem)
          exact Reach.trans this hr'
        · refine ⟨e.2, h1, ?_⟩
          subst ha
          have : Reach pool e.2 (if e.1 ∈ acc then e.2 else e.1) := by
            rw [if_neg h2]
            exact Reach.step (Reach.refl _) (Or.inr hmem)
          exact Reach.trans this hr'
      · exact ⟨a, ha, hr'⟩

theorem grow_closed : ∀ (fuel : ℕ) (pool : List (V × V)) (acc : List V),
    pool.length ≤ fuel → ∀ e ∈ pool,
      (e.1 ∈ grow fuel pool acc → e.2 ∈ grow fuel pool acc) ∧
      (e.2 ∈ grow fuel pool acc → e.1 ∈ grow fuel pool acc) := by
  intro fuel
  induction fuel with
  | zero =>
    intro pool acc hlen e he
    have : pool = [] := List.length_eq_zero.mp (Nat.le_zero.mp hlen)
    rw [this] at he
    exact absurd he (by simp)
  | succ fuel ih =>
    intro pool acc hlen e he
    unfold grow
    cases hf : pool.find? (fun e =>
        (decide (e.1 ∈ acc) && !(decide (e.2 ∈ acc))) ||
        (decide (e.2 ∈ acc) && !(decide (e.1 ∈ acc)))) with
    | none =>
      have hnone := List.find?_eq_none.mp hf e he
      simp only [Bool.or_eq_true, Bool.and_eq_true, Bool.not_eq_true',
        decide_eq_true_eq, decide_eq_false_iff_not, not_or, not_and] at hnone
      constructor
      · intro h1
        by_contra h2
        exact (hnone.1 h1) h2
      · intro h1
        by_contra h2
        exact (hnone.2 h1) h2
    | some f =>
      have hfmem : f ∈ pool := List.mem_of_find?_eq_some hf
      have hlen' : (pool.erase f).length ≤ fuel := by
        rw [List.length_erase_of_mem hfmem]
        omega
      have hpred := List.find?_some hf
      have hone : (f.1 ∈ acc ∧ f.2 ∉ acc) ∨ (f.2 ∈ acc ∧ f.1 ∉ acc) := by
        simp only [Bool.or_eq_true, Bool.and_eq_true, Bool.not_eq_true',
          decide_eq_true_eq, decide_eq_false_iff_not] at hpred
        exact hpred
      by_cases hef : e = f
      · -- the consumed edge: both endpoints end up in the result
        have hsub := grow_acc_subset fuel (pool.erase f) ((if f.1 ∈ acc then f.2 else f.1) :: acc)
        have h1 : f.1 ∈ grow fuel (pool.erase f) ((if f.1 ∈ acc then f.2 else f.1) :: acc) := by
          apply hsub
          rcases hone with ⟨ha, _⟩ | ⟨_, hb⟩
          · exact List.mem_cons_of_mem _ ha
          · rw [if_neg hb]; exact List.mem_cons_self _ _
        have h2 : f.2 ∈ grow fuel (pool.erase f) ((if f.1 ∈ acc then f.2 else f.1) :: acc) := by
          apply hsub
          rcases hone with ⟨ha, _⟩ | ⟨hb, _⟩
          · rw [if_pos ha]; exact List.mem_cons_self _ _
          · exact List.mem_cons_of_mem _ hb
        rw [hef]
        exact ⟨fun _ => h2, fun _ => h1⟩
      · have he' : e ∈ pool.erase f := (List.mem_erase_of_ne hef).mpr he
        exact ih (pool.erase f) _ hlen' e he'

theorem grow_complete {pool : List (V × V)} {u v : V} {acc : List V}
    (hu : u ∈ acc) (h : Reach pool u v) : v ∈ grow pool.length pool acc := by
  induction h with
  | refl => exact grow_acc_subset _ _ _ hu
  | step _ he ih =>
    rcases he with he | he
    · exact (grow_closed pool.length pool acc (le_refl _) _ he).1 ih
    · exact (grow_closed pool.length pool acc (le_refl _) _ he).2 ih

theorem reachB_iff (es : List (V × V)) (u v : V) : reachB es u v = true ↔ Reach es u v := by
  unfold reachB
  rw [decide_eq_true_eq]
  constructor
  · intro h
    rcases grow_sound es.length es [u] v h with ⟨a, ha, hr⟩
    have : a = u := by simpa using ha
    rw [this] at hr
    exact hr
  · intro h
    exact grow_complete (by simp) h

theorem connectsB_cons_iff (es : List (V × V)) (h : V) (t : List V) :
    connectsB es (h :: t) = true ↔ ∀ v ∈ h :: t, Reach es h v := by
  unfold connectsB
  rw [List.all_eq_true]
  constructor
  · intro H v hv
    exact (reachB_iff es h v).mp (H v hv)
  · intro H v hv
    exact (reachB_iff es h v).mpr (H v hv)

theorem connectsB_reach {es : List (V × V)} {S : List V} (hc : connectsB es S = true)
    {u v : V} (hu : u ∈ S) (hv : v ∈ S) : Reach es u v := by
  cases S with
  | nil => exact absurd hu (by simp)
  | cons h t =>
    have H := (connectsB_cons_iff es h t).mp hc
    exact Reach.trans (H u hu).symm (H v hv)

/-- Rerouting: if the two endpoints of `e` stay connected after erasing `e`,
every reachability fact survives the erasure. -/
theorem Reach.reroute {es : List (V × V)} {e : V × V} {x y : V}
    (hcyc : Reach (es.erase e) e.1 e.2) (h : Reach es x y) : Reach (es.erase e) x y := by
  induction h with
  | refl => exact Reach.refl _
  | @step v' w' _ he ih =>
    by_cases hvw : (v', w') ∈ es.erase e
    · exact Reach.step ih (Or.inl hvw)
    · by_cases hwv : (w', v') ∈ es.erase e
      · exact Reach.step ih (Or.inr hwv)
      · rcases he with he | he
        · have heq : (v', w') = e := by
            by_contra hne
            exact hvw ((List.mem_erase_of_ne hne).mpr he)
          have h1 : v' = e.1 := by rw [← heq]
          have h2 : w' = e.2 := by rw [← heq]
          have hcyc' : Reach (es.erase e) v' e.2 := by rw [h1]; exact hcyc
          rw [h2]
          exact Reach.trans ih hcyc'
        · have heq : (w', v') = e := by
            by_contra hne
            exact hwv ((List.mem_erase_of_ne hne).mpr he)
          have h1 : w' = e.1 := by rw [← heq]
          have h2 : v' = e.2 := by rw [← heq]
          have hcyc' : Reach (es.erase e) v' e.1 := by rw [h2]; exact hcyc.symm
          rw [h1]
          exact Reach.trans ih hcyc'

theorem cutAt_isPrefix (w : V) : ∀ p : List V, cutAt w p <+: p := by
  intro p
  induction p with
  | nil => exact List.prefix_refl _
  | cons a rest ih =>
    unfold cutAt
    by_cases haw : a = w
    · rw [if_pos haw, haw]
      exact ⟨rest, rfl⟩
    · rw [if_neg haw]
      exact (List.prefix_cons_inj a).mpr ih

theorem cutAt_getLast? (w : V) : ∀ p : List V, w ∈ p → (cutAt w p).getLast? = some w := by
  intro p
  induction p with
  | nil => intro h; exact absurd h (by simp)
  | cons a rest ih =>
    intro h
    unfold cutAt
    by_cases haw : a = w
    · rw [if_pos haw]; rfl
    · have hw : w ∈ rest := by
        rcases List.mem_cons.mp h with h' | h'
        · exact absurd h'.symm haw
        · exact h'
      have hih := ih hw
      rw [if_neg haw]
      cases hc : cutAt w rest with
      | nil => rw [hc] at hih; simp at hih
      | cons b l =>
        rw [hc] at hih
        rw [List.getLast?_cons_cons]
        exact hih

theorem cutAt_head? (w : V) (p : List V) (hp : p ≠ []) :
    (cutAt w p).head? = p.head? := by
  cases p with
  | nil => exact absurd rfl hp
  | cons a rest =>
    unfold cutAt
    by_cases haw : a = w
    · rw [if_pos haw, haw]; rfl
    · rw [if_neg haw]; rfl

/-- From reachability, a simple (no-repeat) chain of edges. -/
theorem Reach.exists_simple_chain {es : List (V × V)} {u v : V} (h : Reach es u v) :
    ∃ p : List V, p ≠ [] ∧ p.head? = some u ∧ p.getLast? = some v ∧ p.Nodup ∧
      p.Chain' (fun a b => (a, b) ∈ es ∨ (b, a) ∈ es) := by
  induction h with
  | refl =>
    exact ⟨[u], by simp, rfl, rfl, by simp, by simp⟩
  | @step v' w' _ he ih =>
    rcases ih with ⟨p, hne, hhead, hlast, hnodup, hchain⟩
    by_cases hw : w' ∈ p
    · refine ⟨cutAt w' p, ?_, ?_, ?_, ?_, ?_⟩
      · cases p with
        | nil => exact absurd rfl hne
        | cons a rest =>
          unfold cutAt
          split <;> simp
      · rw [cutAt_head? w' p hne]; exact hhead
      · exact cutAt_getLast? w' p hw
      · exact hnodup.sublist (cutAt_isPrefix w' p).sublist
      · exact hchain.prefix (cutAt_isPrefix w' p)
    · refine ⟨p ++ [w'], by simp, ?_, ?_, ?_, ?_⟩
      · rw [List.head?_append_of_ne_nil _ hne]
        exact hhead
      · simp
      · exact List.Nodup.append hnodup (by simp) (by simpa using hw)
      · rw [List.chain'_append]
        refine ⟨hchain, by simp, ?_⟩
        intro x hx y hy
        have hx' : x = v' := by
          rw [hlast] at hx
          exact (Option.mem_some_iff.mp hx).symm
        have hy' : y = w' := by
          simp only [List.head?_cons] at hy
          exact (Option.mem_some_iff.mp hy).symm
        rw [hx', hy']
        exact he

theorem edgeW_symm (g : WGraph) (a b : V) : edgeW g a b = edgeW g b a := by
  unfold edgeW
  rw [ewt_symm]

theorem chainB_iff_chain (g : WGraph) :
    ∀ p : List V, chainB g p = true ↔ p.Chain' (fun a b => hasEdge g a b = true) := by
  intro p
  induction p with
  | nil => simp [chainB]
  | cons a rest ih =>
    cases rest with
    | nil => simp [chainB]
    | cons b rest' =>
      have h1 : chainB g (a :: b :: rest') = (hasEdge g a b && chainB g (b :: rest')) := rfl
      rw [h1, List.chain'_cons, Bool.and_eq_true, ih]

theorem IsPath.chain {g : WGraph} {u v : V} {p : List V} (h : IsPath g u v p) :
    p.Chain' (fun a b => hasEdge g a b = true) :=
  (chainB_iff_chain g p).mp h.2.2.2

theorem IsPath.of_chain {g : WGraph} {u v : V} {p : List V}
    (h1 : p.head? = some u) (h2 : p.getLast? = some v) (h3 : p.Nodup)
    (h4 : p.Chain' (fun a b => hasEdge g a b = true)) : IsPath g u v p :=
  ⟨h1, h2, h3, (chainB_iff_chain g p).mpr h4⟩

theorem insertAll_sound (a : V) : ∀ (m p : List V), p ∈ insertAll a m → List.Perm p (a :: m) := by
  intro m
  induction m with
  | nil =>
    intro p hp
    have : p = [a] := by simpa [insertAll] using hp
    rw [this]
  | cons b l ih =>
    intro p hp
    unfold insertAll at hp
    rcases List.mem_cons.mp hp with hp' | hp'
    · rw [hp']
    · rcases List.mem_map.mp hp' with ⟨q, hq, rfl⟩
      have h1 : List.Perm q (a :: l) := ih q hq
      have h2 : List.Perm (b :: q) (b :: a :: l) := h1.cons b
      exact h2.trans (List.Perm.swap a b l)

theorem insertAll_complete (a : V) : ∀ (m₁ m₂ : List V),
    m₁ ++ a :: m₂ ∈ insertAll a (m₁ ++ m₂) := by
  intro m₁
  induction m₁ with
  | nil =>
    intro m₂
    cases m₂ with
    | nil => simp [insertAll]
    | cons b l => exact List.mem_cons_self _ _
  | cons b m₁' ih =>
    intro m₂
    show b :: (m₁' ++ a :: m₂) ∈ insertAll a (b :: (m₁' ++ m₂))
    unfold insertAll
    exact List.mem_cons_of_mem _ (List.mem_map.mpr ⟨m₁' ++ a :: m₂, ih m₂, rfl⟩)

theorem perms_sound : ∀ (l p : List V), p ∈ perms l → List.Perm p l := by
  intro l
  induction l with
  | nil =>
    intro p hp
    have : p = [] := by simpa [perms] using hp
    rw [this]
  | cons a l ih =>
    intro p hp
    unfold perms at hp
    rcases List.mem_flatMap.mp hp with ⟨m, hm, hpm⟩
    exact (insertAll_sound a m p hpm).trans ((ih m hm).cons a)

theorem perms_complete : ∀ (l p : List V), List.Perm p l → p ∈ perms l := by
  intro l
  induction l with
  | nil =>
    intro p hp
    have : p = [] := hp.eq_nil
    rw [this]
    simp [perms]
  | cons a l ih =>
    intro p hp
    have ha : a ∈ p := hp.mem_iff.mpr (List.mem_cons_self a l)
    rcases List.append_of_mem ha with ⟨p₁, p₂, rfl⟩
    have hmid : List.Perm (p₁ ++ a :: p₂) (a :: (p₁ ++ p₂)) := List.perm_middle
    have hq : List.Perm (p₁ ++ p₂) l := by
      have := hmid.symm.trans hp
      exact (List.perm_cons a).mp this
    unfold perms
    exact List.mem_flatMap.mpr ⟨p₁ ++ p₂, ih _ hq, insertAll_complete a p₁ p₂⟩

theorem pathWeight_nil (g : WGraph) : pathWeight g [] = 0 := rfl

theorem pathWeight_single (g : WGraph) (a : V) : pathWeight g [a] = 0 := by
  show (0 : Qinf) + pathWeight g [] = 0
  rw [pathWeight_nil, add_zero]

theorem pathWeight_cons_cons (g : WGraph) (a b : V) (rest : List V) :
    pathWeight g (a :: b :: rest) = edgeW g a b + pathWeight g (b :: rest) := rfl

theorem mem_allPaths_iff (g : WGraph) (u v : V) (p : List V) :
    p ∈ allPaths g u v ↔ (p ∈ g.verts.sublists.flatMap perms ∧ IsPath g u v p) := by
  unfold allPaths
  rw [List.mem_filter, decide_eq_true_eq]

theorem mem_allPaths_of_isPath (g : WGraph) (u v : V) (p : List V)
    (hp : IsPath g u v p) (hsub : ∀ x ∈ p, x ∈ g.verts) : p ∈ allPaths g u v := by
  rw [mem_allPaths_iff]
  refine ⟨?_, hp⟩
  have hsp : List.Subperm p g.verts :=
    List.subperm_of_subset hp.2.2.1 (fun x hx => hsub x hx)
  rcases hsp with ⟨l, hperm, hsl⟩
  rw [List.mem_flatMap]
  exact ⟨l, List.mem_sublists.mpr hsl, perms_complete l p hperm.symm⟩

theorem isPath_of_mem_allPaths {g : WGraph} {u v : V} {p : List V}
    (h : p ∈ allPaths g u v) : IsPath g u v p :=
  ((mem_allPaths_iff g u v p).mp h).2

theorem dist_le_pathWeight {g : WGraph} {u v : V} {p : List V}
    (h : p ∈ allPaths g u v) : dist g u v ≤ pathWeight g p := by
  unfold dist spath
  cases hm : firstMinBy (pathWeight g) (allPaths g u v) with
  | none =>
    have := firstMinBy_isSome (pathWeight g) (allPaths g u v)
      (by intro hnil; rw [hnil] at h; exact absurd h (by simp))
    rw [hm] at this
    exact absurd this (by simp)
  | some q => exact firstMinBy_le _ _ _ hm p h

theorem spath_eq_dist {g : WGraph} {u v : V} {p : List V}
    (h : spath g u v = some p) : pathWeight g p = dist g u v := by
  unfold dist
  rw [h]

theorem spath_mem {g : WGraph} {u v : V} {p : List V}
    (h : spath g u v = some p) : p ∈ allPaths g u v :=
  firstMinBy_mem _ _ _ h

theorem spath_isSome_of_path {g : WGraph} {u v : V} {p : List V}
    (h : p ∈ allPaths g u v) : (spath g u v).isSome := by
  unfold spath
  exact firstMinBy_isSome _ _ (by intro hnil; rw [hnil] at h; exact absurd h (by simp))

/-- Decoding a successful weight lookup: a matching edge exists. -/
theorem ewt_mem {g : WGraph} {a b : V} {w : ℚ} (h : ewt g a b = some w) :
    ∃ e ∈ g.edges, e.2.2 = w ∧ ((e.1 = a ∧ e.2.1 = b) ∨ (e.1 = b ∧ e.2.1 = a)) := by
  unfold ewt at h
  cases hf : g.edges.find? (fun e => ((e.1 == a) && (e.2.1 == b)) || ((e.1 == b) && (e.2.1 == a))) with
  | none => rw [hf] at h; simp at h
  | some e =>
    rw [hf] at h
    simp only [Option.map_some'] at h
    have hmem : e ∈ g.edges := List.mem_of_find?_eq_some hf
    have hpred := List.find?_some hf
    simp only [Bool.or_eq_true, Bool.and_eq_true, beq_iff_eq] at hpred
    exact ⟨e, hmem, Option.some_inj.mp h, hpred⟩

/-- Every edge weight of a well-formed graph is non-negative, as a step
weight in `Qinf`. -/
theorem edgeW_nonneg {g : WGraph} (hw : ∀ e ∈ g.edges, 0 ≤ e.2.2) (a b : V) :
    0 ≤ edgeW g a b := by
  unfold edgeW
  cases he : ewt g a b with
  | none => exact le_top
  | some w =>
    rcases ewt_mem he with ⟨e, hmem, hew, _⟩
    have hq : (0 : ℚ) ≤ w := hew ▸ hw e hmem
    show (0 : Qinf) ≤ (w : ℚ)
    exact_mod_cast hq

theorem pathWeight_nonneg {g : WGraph} (hw : ∀ e ∈ g.edges, 0 ≤ e.2.2) :
    ∀ p : List V, 0 ≤ pathWeight g p := by
  intro p
  induction p with
  | nil => exact le_refl _
  | cons a rest ih =>
    cases rest with
    | nil =>
      rw [pathWeight_single]
    | cons b rest' =>
      rw [pathWeight_cons_cons]
      exact add_nonneg (edgeW_nonneg hw a b) ih

theorem dist_nonneg {g : WGraph} (hw : ∀ e ∈ g.edges, 0 ≤ e.2.2) (u v : V) :
    0 ≤ dist g u v := by
  unfold dist
  cases spath g u v with
  | none => exact le_top
  | some p => exact pathWeight_nonneg hw p

/-- A single step's weight bounds the whole path weight from below when all
steps are non-negative. -/
theorem edgeW_le_pathWeight {g : WGraph} (hw : ∀ e ∈ g.edges, 0 ≤ e.2.2) :
    ∀ (p : List V) (x y : V), (x, y) ∈ p.zip p.tail → edgeW g x y ≤ pathWeight g p := by
  intro p
  induction p with
  | nil => intro x y h; exact absurd h (by simp)
  | cons a rest ih =>
    intro x y h
    cases rest with
    | nil => exact absurd h (by simp)
    | cons b rest' =>
      have hz : (a :: b :: rest').zip (a :: b :: rest').tail
          = (a, b) :: ((b :: rest').zip (b :: rest').tail) := rfl
      rw [hz] at h
      have hpw : pathWeight g (a :: b :: rest') = edgeW g a b + pathWeight g (b :: rest') := rfl
      rw [hpw]
      rcases List.mem_cons.mp h with h' | h'
      · have hx : x = a := by rw [Prod.mk.injEq] at h'; exact h'.1
        have hy : y = b := by rw [Prod.mk.injEq] at h'; exact h'.2
        rw [hx, hy]
        exact le_add_of_nonneg_right (pathWeight_nonneg hw _)
      · exact le_trans (ih x y h') (le_add_of_nonneg_left (edgeW_nonneg hw a b))

theorem pathWeight_concat (g : WGraph) :
    ∀ (p : List V) (y : V), pathWeight g (p ++ [y]) =
      pathWeight g p + (match p.getLast? with | some x => edgeW g x y | none => 0) := by
  intro p
  induction p with
  | nil => intro y; simp [pathWeight]
  | cons a rest ih =>
    intro y
    cases rest with
    | nil =>
      have h1 : ([a] : List V) ++ [y] = [a, y] := rfl
      rw [h1]
      have h2 : pathWeight g [a, y] = edgeW g a y + pathWeight g [y] := rfl
      rw [h2]
      simp [pathWeight]
    | cons b rest' =>
      have h1 : (a :: b :: rest') ++ [y] = a :: ((b :: rest') ++ [y]) := rfl
      rw [h1]
      have h2 : (b :: rest') ++ [y] = b :: (rest' ++ [y]) := rfl
      have h3 : pathWeight g (a :: b :: (rest' ++ [y])) =
          edgeW g a b + pathWeight g (b :: (rest' ++ [y])) := rfl
      rw [h2, h3, ← h2, ih y]
      have h4 : pathWeight g (a :: b :: rest') = edgeW g a b + pathWeight g (b :: rest') := rfl
      rw [h4]
      have h5 : (b :: rest').getLast? = (a :: b :: rest').getLast? := by
        rw [List.getLast?_cons_cons]
      rw [h5, add_assoc]

theorem pathWeight_reverse (g : WGraph) :
    ∀ p : List V, pathWeight g p.reverse = pathWeight g p := by
  intro p
  induction p with
  | nil => rfl
  | cons a rest ih =>
    have h1 : (a :: rest).reverse = rest.reverse ++ [a] := by simp
    rw [h1, pathWeight_concat g rest.reverse a]
    cases rest with
    | nil => simp [pathWeight]
    | cons b rest' =>
      have hgl : (b :: rest').reverse.getLast? = some b := by
        rw [List.getLast?_reverse]
        rfl
      rw [hgl, ih]
      show pathWeight g (b :: rest') + edgeW g b a = pathWeight g (a :: b :: rest')
      have h2 : pathWeight g (a :: b :: rest') = edgeW g a b + pathWeight g (b :: rest') := rfl
      rw [h2, edgeW_symm g b a, add_comm]

theorem IsPath.reverse {g : WGraph} {u v : V} {p : List V}
    (h : IsPath g u v p) : IsPath g v u p.reverse := by
  obtain ⟨h1, h2, h3, h4⟩ := h
  refine IsPath.of_chain ?_ ?_ (List.nodup_reverse.mpr h3) ?_
  · rw [List.head?_reverse]; exact h2
  · rw [List.getLast?_reverse]; exact h1
  · rw [List.chain'_reverse]
    apply List.Chain'.imp ?_ ((chainB_iff_chain g p).mp h4)
    intro a b hab
    show hasEdge g b a = true
    unfold hasEdge
    rw [ewt_symm g b a]
    exact hab

theorem allPaths_subset_verts {g : WGraph} {u v : V} {p : List V}
    (h : p ∈ allPaths g u v) : ∀ x ∈ p, x ∈ g.verts := by
  have h1 := ((mem_allPaths_iff g u v p).mp h).1
  rw [List.mem_flatMap] at h1
  rcases h1 with ⟨l, hl, hpl⟩
  intro x hx
  have hperm : List.Perm p l := perms_sound l p hpl
  exact (List.mem_sublists.mp hl).subset (hperm.mem_iff.mp hx)

theorem dist_symm (g : WGraph) (u v : V) : dist g u v = dist g v u := by
  have key : ∀ a b : V, dist g a b ≤ dist g b a := by
    intro a b
    cases hm : spath g b a with
    | none =>
      have hba : dist g b a = ⊤ := by unfold dist; rw [hm]
      rw [hba]; exact le_top
    | some p =>
      have hmem := spath_mem hm
      have hp := isPath_of_mem_allPaths hmem
      have hrev : p.reverse ∈ allPaths g a b := by
        apply mem_allPaths_of_isPath g a b p.reverse hp.reverse
        intro x hx
        exact allPaths_subset_verts hmem x (List.mem_reverse.mp hx)
      have hd := dist_le_pathWeight hrev
      rw [pathWeight_reverse] at hd
      have hba : dist g b a = pathWeight g p := by unfold dist; rw [hm]
      rw [hba]
      exact hd
  exact le_antisymm (key u v) (key v u)

theorem pairsOf_endpoints : ∀ (S : List V) (e : V × V), e ∈ pairsOf S →
    e.1 ∈ S ∧ e.2 ∈ S := by
  intro S
  induction S with
  | nil => intro e he; exact absurd he (by simp [pairsOf])
  | cons a rest ih =>
    intro e he
    unfold pairsOf at he
    rcases List.mem_append.mp he with he | he
    · rcases List.mem_map.mp he with ⟨b, hb, rfl⟩
      exact ⟨List.mem_cons_self _ _, List.mem_cons_of_mem _ hb⟩
    · rcases ih e he with ⟨h1, h2⟩
      exact ⟨List.mem_cons_of_mem _ h1, List.mem_cons_of_mem _ h2⟩

theorem pairsOf_ne : ∀ (S : List V), S.Nodup → ∀ e ∈ pairsOf S, e.1 ≠ e.2 := by
  intro S
  induction S with
  | nil => intro _ e he; exact absurd he (by simp [pairsOf])
  | cons a rest ih =>
    intro hnd e he
    unfold pairsOf at he
    rcases List.mem_append.mp he with he | he
    · rcases List.mem_map.mp he with ⟨b, hb, rfl⟩
      intro hab
      have hab' : a = b := hab
      rw [List.nodup_cons] at hnd
      exact hnd.1 (by rw [hab']; exact hb)
    · exact ih (List.nodup_cons.mp hnd).2 e he

theorem mem_pairsOf_or : ∀ (S : List V) (a b : V), a ∈ S → b ∈ S → a ≠ b →
    (a, b) ∈ pairsOf S ∨ (b, a) ∈ pairsOf S := by
  intro S
  induction S with
  | nil => intro a b ha _ _; exact absurd ha (by simp)
  | cons x rest ih =>
    intro a b ha hb hne
    unfold pairsOf
    rcases List.mem_cons.mp ha with ha' | ha'
    · subst ha'
      have hb' : b ∈ rest := by
        rcases List.mem_cons.mp hb with h' | h'
        · exact absurd h'.symm hne
        · exact h'
      left
      exact List.mem_append.mpr (Or.inl (List.mem_map.mpr ⟨b, hb', rfl⟩))
    · rcases List.mem_cons.mp hb with hb' | hb'
      · subst hb'
        right
        exact List.mem_append.mpr (Or.inl (List.mem_map.mpr ⟨a, ha', rfl⟩))
      · rcases ih a b ha' hb' hne with h' | h'
        · exact Or.inl (List.mem_append.mpr (Or.inr h'))
        · exact Or.inr (List.mem_append.mpr (Or.inr h'))

/-- The complete graph connects its vertex list. -/
theorem pairsOf_connects (S : List V) : connectsB (pairsOf S) S = true := by
  cases S with
  | nil => rfl
  | cons h t =>
    rw [connectsB_cons_iff]
    intro v hv
    rcases List.mem_cons.mp hv with hv' | hv'
    · rw [hv']; exact Reach.refl _
    · refine Reach.step (Reach.refl h) (Or.inl ?_)
      unfold pairsOf
      exact List.mem_append.mpr (Or.inl (List.mem_map.mpr ⟨v, hv', rfl⟩))

/-- Substituting one edge by a detour preserves reachability. -/
theorem Reach.drop_edge {es' es : List (V × V)} {q : V × V} {x y : V}
    (hre : Reach es' q.1 q.2) (hsub : ∀ r ∈ es, r ∈ es' ∨ r = q) (h : Reach es x y) :
    Reach es' x y := by
  induction h with
  | refl => exact Reach.refl _
  | @step v' w' _ he ih =>
    rcases he with he | he
    · rcases hsub _ he with hin | heq
      · exact Reach.step ih (Or.inl hin)
      · have h1 : v' = q.1 := by rw [← heq]
        have h2 : w' = q.2 := by rw [← heq]
        have hre' : Reach es' v' w' := by rw [h1, h2]; exact hre
        exact Reach.trans ih hre'
    · rcases hsub _ he with hin | heq
      · exact Reach.step ih (Or.inr hin)
      · have h1 : w' = q.1 := by rw [← heq]
        have h2 : v' = q.2 := by rw [← heq]
        have hre' : Reach es' v' w' := by rw [h1, h2]; exact hre.symm
        exact Reach.trans ih hre'

theorem connectsB_of_unordered {es es' : List (V × V)} {S : List V}
    (hiff : ∀ a b : V, ((a, b) ∈ es ∨ (b, a) ∈ es) → ((a, b) ∈ es' ∨ (b, a) ∈ es'))
    (h : connectsB es S = true) : connectsB es' S = true := by
  cases S with
  | nil => rfl
  | cons h0 t =>
    rw [connectsB_cons_iff] at h ⊢
    intro v hv
    exact Reach.of_unordered hiff (h v hv)

theorem bestSpan_mem_filter {α : Type} {wt : α → Qinf} {endp : α → V × V}
    {pool : List α} {S : List V} {es : List α} (h : bestSpan wt endp pool S = some es) :
    List.Sublist es pool ∧ connectsB (es.map endp) S = true := by
  have hmem := firstMinBy_mem _ _ _ h
  rw [List.mem_filter] at hmem
  exact ⟨List.mem_sublists.mp hmem.1, hmem.2⟩

theorem bestSpan_le {α : Type} {wt : α → Qinf} {endp : α → V × V}
    {pool : List α} {S : List V} {es : List α} (h : bestSpan wt endp pool S = some es) :
    ∀ es' : List α, List.Sublist es' pool → connectsB (es'.map endp) S = true →
      (es.map wt).sum ≤ (es'.map wt).sum := by
  intro es' hsl hc
  have hmem : es' ∈ pool.sublists.filter (fun es => connectsB (es.map endp) S) :=
    List.mem_filter.mpr ⟨List.mem_sublists.mpr hsl, hc⟩
  have hle := firstMinBy_le _ _ _ h es' hmem
  rcases (Prod.Lex.le_iff _ _).mp hle with h' | h'
  · exact le_of_lt h'
  · exact le_of_eq h'.1

theorem bestSpan_isSome {α : Type} (wt : α → Qinf) (endp : α → V × V)
    (pool : List α) (S : List V) (hc : connectsB (pool.map endp) S = true) :
    (bestSpan wt endp pool S).isSome := by
  apply firstMinBy_isSome
  intro hnil
  have hmem : pool ∈ pool.sublists.filter (fun es => connectsB (es.map endp) S) :=
    List.mem_filter.mpr ⟨List.mem_sublists.mpr (List.Sublist.refl pool), hc⟩
  rw [hnil] at hmem
  exact absurd hmem (by simp)

theorem sum_map_erase {α : Type} [BEq α] [LawfulBEq α] (wt : α → Qinf) :
    ∀ (l : List α) (a : α), a ∈ l →
      (l.map wt).sum = wt a + ((l.erase a).map wt).sum := by
  intro l
  induction l with
  | nil => intro a ha; exact absurd ha (by simp)
  | cons b l ih =>
    intro a ha
    rw [List.erase_cons]
    by_cases hba : b = a
    · rw [if_pos (by rw [hba]; exact beq_self_eq_true a)]
      rw [List.map_cons, List.sum_cons, hba]
    · rw [if_neg (by simpa using hba)]
      have ha' : a ∈ l := by
        rcases List.mem_cons.mp ha with h | h
        · exact absurd h.symm hba
        · exact h
      rw [List.map_cons, List.sum_cons, ih a ha', List.map_cons, List.sum_cons,
        ← add_assoc, ← add_assoc, add_comm (wt b) (wt a)]

/-- Every edge of the selected spanning structure is a bridge: the structure
is acyclic (minimally connected). -/
theorem bestSpan_bridge {α : Type} [BEq α] [LawfulBEq α] {wt : α → Qinf} {endp : α → V × V}
    {pool : List α} {S : List V} (hw : ∀ a ∈ pool, 0 ≤ wt a)
    {es : List α} (h : bestSpan wt endp pool S = some es) :
    ∀ e ∈ es, ¬ Reach ((es.erase e).map endp) (endp e).1 (endp e).2 := by
  intro e he hre
  obtain ⟨hsl, hc⟩ := bestSpan_mem_filter h
  -- the erased structure still connects S
  have hc' : connectsB ((es.erase e).map endp) S = true := by
    cases S with
    | nil => rfl
    | cons h0 t =>
      rw [connectsB_cons_iff] at hc ⊢
      intro v hv
      refine Reach.drop_edge hre ?_ (hc v hv)
      intro r hr
      rcases List.mem_map.mp hr with ⟨a, ha, rfl⟩
      by_cases hae : a = e
      · right; rw [hae]
      · left
        exact List.mem_map.mpr ⟨a, (List.mem_erase_of_ne hae).mpr ha, rfl⟩
  have hsl' : List.Sublist (es.erase e) pool := (List.erase_sublist e es).trans hsl
  have hmem' : es.erase e ∈ pool.sublists.filter (fun es => connectsB (es.map endp) S) :=
    List.mem_filter.mpr ⟨List.mem_sublists.mpr hsl', hc'⟩
  have hle := firstMinBy_le _ _ _ h (es.erase e) hmem'
  -- but the erased structure has a strictly smaller key
  have hsum : (es.map wt).sum = wt e + ((es.erase e).map wt).sum :=
    sum_map_erase wt es e he
  have hwe : 0 ≤ wt e := hw e (hsl.subset he)
  have hlen : (es.erase e).length < es.length := by
    rw [List.length_erase_of_mem he]
    have : 0 < es.length := List.length_pos.mpr (List.ne_nil_of_mem he)
    omega
  have hlt : (toLex (((es.erase e).map wt).sum, (es.erase e).length) :
      Qinf ×ₗ ℕ) < toLex ((es.map wt).sum, es.length) := by
    rcases lt_or_eq_of_le (le_add_of_nonneg_left hwe :
        ((es.erase e).map wt).sum ≤ wt e + ((es.erase e).map wt).sum) with hlt' | heq'
    · rw [Prod.Lex.lt_iff]
      left
      rw [hsum]
      exact hlt'
    · rw [Prod.Lex.lt_iff]
      right
      exact ⟨by rw [hsum, ← heq'], hlen⟩
  exact absurd (hle) (not_le.mpr hlt)

theorem mst_isSome (g : WGraph) (S : List V) : (mst g S).isSome := by
  unfold mst
  apply bestSpan_isSome
  have hmap : (pairsOf S).map id = pairsOf S := List.map_id _
  rw [hmap]
  exact pairsOf_connects S

theorem score_eq_of_mst {g : WGraph} {S : List V} {es : List (V × V)}
    (h : mst g S = some es) : score g S = (es.map (fun e => dist g e.1 e.2)).sum := by
  unfold score
  rw [h]

theorem score_le_of_connects {g : WGraph} {S : List V} {es' : List (V × V)}
    (hsl : List.Sublist es' (pairsOf S)) (hc : connectsB es' S = true) :
    score g S ≤ (es'.map (fun e => dist g e.1 e.2)).sum := by
  cases hm : mst g S with
  | none =>
    have := mst_isSome g S
    rw [hm] at this
    exact absurd this (by simp)
  | some es =>
    rw [score_eq_of_mst hm]
    unfold mst at hm
    have hc' : connectsB (es'.map id) S = true := by
      rw [List.map_id]
      exact hc
    exact bestSpan_le hm es' hsl hc'

theorem selectBits_sublist : ∀ (i : ℕ) (l : List V), List.Sublist (selectBits i l) l := by
  intro i l
  induction l generalizing i with
  | nil => exact List.Sublist.refl _
  | cons a l ih =>
    unfold selectBits
    by_cases h : i % 2 = 1
    · rw [if_pos h]
      exact List.Sublist.cons₂ a (ih (i / 2))
    · rw [if_neg h]
      exact List.Sublist.cons a (ih (i / 2))

theorem selectBits_zero : ∀ l : List V, selectBits 0 l = [] := by
  intro l
  induction l with
  | nil => rfl
  | cons a l ih =>
    unfold selectBits
    rw [if_neg (by omega)]
    exact ih

/-- Every subset (sublist) of `l` is selected by some bitmask below `2 ^ |l|`. -/
theorem selectBits_complete : ∀ (l X : List V), List.Sublist X l →
    ∃ i : ℕ, i < 2 ^ l.length ∧ selectBits i l = X := by
  intro l
  induction l with
  | nil =>
    intro X hX
    have : X = [] := List.sublist_nil.mp hX
    exact ⟨0, by norm_num, by rw [this]; rfl⟩
  | cons a l ih =>
    intro X hX
    cases hX with
    | cons _ h' =>
      rcases ih X h' with ⟨i, hi, hsel⟩
      refine ⟨2 * i, ?_, ?_⟩
      · have h2 : (2 : ℕ) ^ (a :: l).length = 2 * 2 ^ l.length := by
          rw [List.length_cons]
          ring
        omega
      · unfold selectBits
        rw [if_neg (by omega)]
        rw [Nat.mul_div_cancel_left i (by norm_num : (0:ℕ) < 2)]
        exact hsel
    | cons₂ _ h' =>
      rename_i X'
      rcases ih X' h' with ⟨i, hi, hsel⟩
      refine ⟨2 * i + 1, ?_, ?_⟩
      · have h2 : (2 : ℕ) ^ (a :: l).length = 2 * 2 ^ l.length := by
          rw [List.length_cons]
          ring
        omega
      · unfold selectBits
        rw [if_pos (by omega)]
        have hdiv : (2 * i + 1) / 2 = i := by omega
        rw [hdiv, hsel]

theorem candSet_subset_verts (g : WGraph) (T : List V) (i : ℕ) :
    ∀ v ∈ candSet g T i, v ∈ g.verts := by
  intro v hv
  exact List.mem_of_mem_filter hv

theorem candSet_nodup {g : WGraph} (hnd : g.verts.Nodup) (T : List V) (i : ℕ) :
    (candSet g T i).Nodup :=
  hnd.filter _

theorem mem_candSet_of_term {g : WGraph} {T : List V} {t : V}
    (ht : t ∈ T) (htv : t ∈ g.verts) (i : ℕ) : t ∈ candSet g T i := by
  unfold candSet
  rw [List.mem_filter]
  exact ⟨htv, by simp [ht]⟩

theorem mem_candSet_iff (g : WGraph) (T : List V) (i : ℕ) (v : V) :
    v ∈ candSet g T i ↔ v ∈ g.verts ∧ (v ∈ T ∨ v ∈ selectBits i (nts g T)) := by
  unfold candSet
  rw [List.mem_filter]
  simp

theorem validGraph_nodup {g : WGraph} (h : validGraphB g = true) : g.verts.Nodup := by
  unfold validGraphB at h
  simp only [Bool.and_eq_true, decide_eq_true_eq] at h
  exact h.1.1.1

theorem validGraph_edges {g : WGraph} (h : validGraphB g = true) :
    ∀ e ∈ g.edges, e.1 ∈ g.verts ∧ e.2.1 ∈ g.verts ∧ e.1 ≠ e.2.1 ∧ 0 ≤ e.2.2 := by
  unfold validGraphB at h
  simp only [Bool.and_eq_true, List.all_eq_true, decide_eq_true_eq] at h
  intro e he
  have := h.1.1.2 e he
  tauto

theorem validGraph_wnonneg {g : WGraph} (h : validGraphB g = true) :
    ∀ e ∈ g.edges, 0 ≤ e.2.2 := by
  intro e he
  exact (validGraph_edges h e he).2.2.2

theorem validGraph_connected {g : WGraph} (h : validGraphB g = true) :
    connectsB (g.edges.map (fun e => (e.1, e.2.1))) g.verts = true := by
  unfold validGraphB at h
  simp only [Bool.and_eq_true] at h
  exact h.2

theorem validTerms_len {g : WGraph} {T : List V} (h : validTermsB g T = true) :
    2 ≤ T.length := by
  unfold validTermsB at h
  simp only [Bool.and_eq_true, decide_eq_true_eq] at h
  exact h.1

theorem validTerms_mem {g : WGraph} {T : List V} (h : validTermsB g T = true) :
    ∀ t ∈ T, t ∈ g.verts := by
  unfold validTermsB at h
  simp only [Bool.and_eq_true, List.all_eq_true, decide_eq_true_eq] at h
  exact h.2

/-- The slices reassemble exactly into the original contiguous range. -/
theorem sliceIdx_flatten : ∀ (n start total : ℕ), 1 ≤ n →
    (sliceIdx start total n).flatten = List.range' start total := by
  intro n
  induction n with
  | zero => intro _ _ h; omega
  | succ n ih =>
    intro start total _
    cases n with
    | zero =>
      show (sliceIdx start total 1).flatten = List.range' start total
      unfold sliceIdx
      simp
    | succ m =>
      show (sliceIdx start total (m + 2)).flatten = List.range' start total
      unfold sliceIdx
      have hs : (total + (m + 1)) / (m + 2) ≤ total := by
        rcases Nat.eq_zero_or_pos total with h0 | h0
        · subst h0
          have : (m + 1) / (m + 2) = 0 := Nat.div_eq_of_lt (by omega)
          simp [this]
        · have hlt : total + (m + 1) < (total + 1) * (m + 2) := by nlinarith
          have := (Nat.div_lt_iff_lt_mul (by omega : 0 < m + 2)).mpr hlt
          omega
      have hflat : (List.range' start ((total + (m + 1)) / (m + 2)) ::
          sliceIdx (start + (total + (m + 1)) / (m + 2))
            (total - (total + (m + 1)) / (m + 2)) (m + 1)).flatten =
          List.range' start ((total + (m + 1)) / (m + 2)) ++
          (sliceIdx (start + (total + (m + 1)) / (m + 2))
            (total - (total + (m + 1)) / (m + 2)) (m + 1)).flatten := rfl
      rw [hflat, ih _ _ (by omega)]
      have happ := List.range'_append start ((total + (m + 1)) / (m + 2))
        (total - (total + (m + 1)) / (m + 2)) 1
      simp only [one_mul, List.range'_one] at happ
      have harith : (total + (m + 1)) / (m + 2) + (total - (total + (m + 1)) / (m + 2))
          = total := by omega
      rw [show total - (total + (m + 1)) / (m + 2) + (total + (m + 1)) / (m + 2) = total
        by omega] at happ
      simpa [harith] using happ

/-- The §4.5 correctness invariant at the index level: the parallel reduce
selects exactly the sequential winner. -/
theorem bestIdxPar_eq_seq (g : WGraph) (T : List V) (nproc : ℕ) :
    bestIdxPar g T nproc = bestIdxSeq g T := by
  unfold bestIdxPar bestIdxSeq
  rw [← firstMinBy_flatten,
    sliceIdx_flatten (max 1 nproc) 0 (subsetCount g T) (le_max_left 1 nproc),
    ← List.range_eq_range']

/-- Any two runs produce identical results, whatever the parallelism flags. -/
theorem steinertree_run_irrelevant (g : WGraph) (T : List V)
    (p₁ p₂ : Bool) (n₁ n₂ : ℕ) :
    steinertree g T p₁ n₁ = steinertree g T p₂ n₂ := by
  unfold steinertree
  cases p₁ <;> cases p₂ <;>
    simp [bestIdxPar_eq_seq]

/-! ### Structural facts about the solver's expansion -/

theorem zip_pairs_of_chain {R : V → V → Prop} :
    ∀ p : List V, p.Chain' R → ∀ q ∈ p.zip p.tail, R q.1 q.2 := by
  intro p
  induction p with
  | nil => intro _ q hq; exact absurd hq (by simp)
  | cons a rest ih =>
    intro hch q hq
    cases rest with
    | nil => exact absurd hq (by simp)
    | cons b rest' =>
      have hz : (a :: b :: rest').zip (a :: b :: rest').tail
          = (a, b) :: ((b :: rest').zip (b :: rest').tail) := rfl
      rw [hz] at hq
      rcases List.mem_cons.mp hq with hq' | hq'
      · rw [hq']
        exact (List.chain'_cons.mp hch).1
      · exact ih (List.chain'_cons.mp hch).2 q hq'

theorem chain_of_zip_pairs {R : V → V → Prop} :
    ∀ p : List V, (∀ q ∈ p.zip p.tail, R q.1 q.2) → p.Chain' R := by
  intro p
  induction p with
  | nil => intro _; exact List.chain'_nil
  | cons a rest ih =>
    intro h
    cases rest with
    | nil => simp
    | cons b rest' =>
      have hz : (a :: b :: rest').zip (a :: b :: rest').tail
          = (a, b) :: ((b :: rest').zip (b :: rest').tail) := rfl
      rw [List.chain'_cons]
      refine ⟨h (a, b) (by rw [hz]; exact List.mem_cons_self _ _), ?_⟩
      apply ih
      intro q hq
      exact h q (by rw [hz]; exact List.mem_cons_of_mem _ hq)

/-- Consecutive vertices of a duplicate-free list are distinct. -/
theorem zip_tail_ne : ∀ p : List V, p.Nodup → ∀ q ∈ p.zip p.tail, q.1 ≠ q.2 := by
  intro p
  induction p with
  | nil => intro _ q hq; exact absurd hq (by simp)
  | cons a rest ih =>
    intro hnd q hq
    cases rest with
    | nil => exact absurd hq (by simp)
    | cons b rest' =>
      have hz : (a :: b :: rest').zip (a :: b :: rest').tail
          = (a, b) :: ((b :: rest').zip (b :: rest').tail) := rfl
      rw [hz] at hq
      rw [List.nodup_cons] at hnd
      rcases List.mem_cons.mp hq with hq' | hq'
      · rw [hq']
        intro hab
        have hab' : a = b := hab
        exact hnd.1 (by rw [hab']; exact List.mem_cons_self _ _)
      · exact ih hnd.2 q hq'

/-- Vertices chained along edges with both endpoints in `W` stay in `W`. -/
theorem chain_mem_of_head {es : List (V × V)} {W : List V}
    (hend : ∀ e ∈ es, e.1 ∈ W ∧ e.2 ∈ W) :
    ∀ (p : List V) (a : V), a ∈ W →
      (a :: p).Chain' (fun x y => (x, y) ∈ es ∨ (y, x) ∈ es) → ∀ x ∈ a :: p, x ∈ W := by
  intro p
  induction p with
  | nil =>
    intro a ha _ x hx
    have : x = a := by simpa using hx
    rw [this]; exact ha
  | cons b rest ih =>
    intro a ha hch x hx
    have hab : (a, b) ∈ es ∨ (b, a) ∈ es := (List.chain'_cons.mp hch).1
    have hb : b ∈ W := by
      rcases hab with h | h
      · exact (hend _ h).2
      · exact (hend _ h).1
    rcases List.mem_cons.mp hx with hx' | hx'
    · rw [hx']; exact ha
    · exact ih b hb (List.chain'_cons.mp hch).2 x hx'

theorem hasEdge_of_mem {g : WGraph} {e : V × V × ℚ} (he : e ∈ g.edges) :
    hasEdge g e.1 e.2.1 = true := by
  unfold hasEdge ewt
  rw [Option.isSome_map']
  rw [List.find?_isSome]
  exact ⟨e, he, by simp⟩

/-- From reachability along well-grounded edges, a member of the path
enumeration whose steps follow those edges. -/
theorem reach_exists_allPath {g : WGraph} {es : List (V × V)} {u v : V}
    (hu : u ∈ g.verts)
    (hend : ∀ e ∈ es, e.1 ∈ g.verts ∧ e.2 ∈ g.verts)
    (hedge : ∀ e ∈ es, hasEdge g e.1 e.2 = true)
    (hr : Reach es u v) :
    ∃ p ∈ allPaths g u v, p.Chain' (fun a b => (a, b) ∈ es ∨ (b, a) ∈ es) := by
  rcases hr.exists_simple_chain with ⟨p, hne, hhead, hlast, hnodup, hchain⟩
  have hedge' : p.Chain' (fun a b => hasEdge g a b = true) := by
    apply List.Chain'.imp ?_ hchain
    intro a b hab
    rcases hab with h | h
    · exact hedge _ h
    · have := hedge _ h
      unfold hasEdge at this ⊢
      rw [ewt_symm]
      exact this
  have hsub : ∀ x ∈ p, x ∈ g.verts := by
    cases p with
    | nil => exact absurd rfl hne
    | cons a rest =>
      have ha : a = u := by
        simp only [List.head?_cons] at hhead
        exact Option.some_inj.mp hhead
      rw [ha]
      exact chain_mem_of_head hend rest u (by rw [← ha] at hu; rw [ha] at hu; exact hu)
        (by rw [ha] at hchain; exact hchain)
  have hp : IsPath g u v p := IsPath.of_chain hhead hlast hnodup hedge'
  exact ⟨p, mem_allPaths_of_isPath g u v p hp hsub, hchain⟩

/-- On a valid graph, a shortest path exists between any two vertices. -/
theorem spath_isSome_valid {g : WGraph} (hg : validGraphB g = true) {u v : V}
    (hu : u ∈ g.verts) (hv : v ∈ g.verts) : (spath g u v).isSome := by
  have hconn := validGraph_connected hg
  have hr : Reach (g.edges.map (fun e => (e.1, e.2.1))) u v :=
    connectsB_reach hconn hu hv
  have hend : ∀ e ∈ g.edges.map (fun e => (e.1, e.2.1)), e.1 ∈ g.verts ∧ e.2 ∈ g.verts := by
    intro e he
    rcases List.mem_map.mp he with ⟨f, hf, rfl⟩
    have := validGraph_edges hg f hf
    exact ⟨this.1, this.2.1⟩
  have hedge : ∀ e ∈ g.edges.map (fun e => (e.1, e.2.1)), hasEdge g e.1 e.2 = true := by
    intro e he
    rcases List.mem_map.mp he with ⟨f, hf, rfl⟩
    exact hasEdge_of_mem hf
  rcases reach_exists_allPath hu hend hedge hr with ⟨p, hp, _⟩
  exact spath_isSome_of_path hp

theorem pathEdges_mem {g : WGraph} :
    ∀ (p : List V) (e : V × V × ℚ), e ∈ pathEdges g p →
      (e.1, e.2.1) ∈ p.zip p.tail ∧ e.2.2 = (ewt g e.1 e.2.1).getD 0 := by
  intro p
  induction p with
  | nil => intro e he; exact absurd he (by simp [pathEdges])
  | cons a rest ih =>
    intro e he
    cases rest with
    | nil => exact absurd he (by simp [pathEdges])
    | cons b rest' =>
      have hz : (a :: b :: rest').zip (a :: b :: rest').tail
          = (a, b) :: ((b :: rest').zip (b :: rest').tail) := rfl
      have hpe : pathEdges g (a :: b :: rest')
          = (a, b, (ewt g a b).getD 0) :: pathEdges g (b :: rest') := rfl
      rw [hpe] at he
      rcases List.mem_cons.mp he with he' | he'
      · rw [he', hz]
        exact ⟨List.mem_cons_self _ _, rfl⟩
      · rcases ih e he' with ⟨h1, h2⟩
        rw [hz]
        exact ⟨List.mem_cons_of_mem _ h1, h2⟩

theorem mem_unionEdges {g : WGraph} {mstE : List (V × V)} {e : V × V × ℚ} :
    e ∈ unionEdges g mstE ↔
      ∃ q ∈ mstE, ∃ p, spath g q.1 q.2 = some p ∧ e ∈ pathEdges g p := by
  unfold unionEdges
  rw [List.mem_dedup, List.mem_flatMap]
  constructor
  · rintro ⟨q, hq, he⟩
    cases hs : spath g q.1 q.2 with
    | none => rw [hs] at he; exact absurd he (by simp)
    | some p =>
      rw [hs] at he
      exact ⟨q, hq, p, hs, he⟩
  · rintro ⟨q, hq, p, hp, he⟩
    exact ⟨q, hq, by rw [hp]; exact he⟩

/-- Every edge of the expansion is an edge of the original graph: its weight
is the looked-up weight, its endpoints are distinct listed vertices, and the
weight is non-negative on a valid graph. -/
theorem unionEdges_props {g : WGraph} (hg : validGraphB g = true) {mstE : List (V × V)}
    {e : V × V × ℚ} (he : e ∈ unionEdges g mstE) :
    ewt g e.1 e.2.1 = some e.2.2 ∧ e.1 ≠ e.2.1 ∧ e.1 ∈ g.verts ∧ e.2.1 ∈ g.verts ∧
      0 ≤ e.2.2 := by
  rcases mem_unionEdges.mp he with ⟨q, hq, p, hp, hpe⟩
  have hmem := spath_mem hp
  have hip := isPath_of_mem_allPaths hmem
  rcases pathEdges_mem p e hpe with ⟨hz, hw⟩
  have hedge : hasEdge g e.1 e.2.1 = true :=
    zip_pairs_of_chain p hip.chain _ hz
  unfold hasEdge at hedge
  rw [Option.isSome_iff_exists] at hedge
  rcases hedge with ⟨w, hwew⟩
  have hww : e.2.2 = w := by rw [hw, hwew]; rfl
  have hne : e.1 ≠ e.2.1 := zip_tail_ne p hip.2.2.1 _ hz
  have hv1 : e.1 ∈ g.verts :=
    allPaths_subset_verts hmem e.1 (List.of_mem_zip hz).1
  have hv2 : e.2.1 ∈ g.verts := by
    have := (List.of_mem_zip hz).2
    exact allPaths_subset_verts hmem e.2.1 (List.mem_of_mem_tail this)
  refine ⟨by rw [hwew, hww], hne, hv1, hv2, ?_⟩
  rw [hww]
  rcases ewt_mem hwew with ⟨f, hf, hfw, _⟩
  rw [← hfw]
  exact validGraph_wnonneg hg f hf

theorem pathEdges_mem_of_zip {g : WGraph} :
    ∀ (p : List V) (q : V × V), q ∈ p.zip p.tail →
      (q.1, q.2, (ewt g q.1 q.2).getD 0) ∈ pathEdges g p := by
  intro p
  induction p with
  | nil => intro q hq; exact absurd hq (by simp)
  | cons a rest ih =>
    intro q hq
    cases rest with
    | nil => exact absurd hq (by simp)
    | cons b rest' =>
      have hz : (a :: b :: rest').zip (a :: b :: rest').tail
          = (a, b) :: ((b :: rest').zip (b :: rest').tail) := rfl
      have hpe : pathEdges g (a :: b :: rest')
          = (a, b, (ewt g a b).getD 0) :: pathEdges g (b :: rest') := rfl
      rw [hz] at hq
      rw [hpe]
      rcases List.mem_cons.mp hq with hq' | hq'
      · rw [hq']
        exact List.mem_cons_self _ _
      · exact List.mem_cons_of_mem _ (ih q hq')

theorem reach_along {PR : List (V × V)} :
    ∀ (rest : List V) (a : V), (∀ q ∈ (a :: rest).zip rest, q ∈ PR) →
      ∀ x ∈ a :: rest, Reach PR a x := by
  intro rest
  induction rest with
  | nil =>
    intro a _ x hx
    have : x = a := by simpa using hx
    rw [this]; exact Reach.refl _
  | cons b rest' ih =>
    intro a h x hx
    have hab : (a, b) ∈ PR := h (a, b) (List.mem_cons_self _ _)
    rcases List.mem_cons.mp hx with hx' | hx'
    · rw [hx']; exact Reach.refl _
    · have hrest : ∀ q ∈ (b :: rest').zip rest', q ∈ PR := by
        intro q hq
        exact h q (List.mem_cons_of_mem _ hq)
      have hbx : Reach PR b x := ih b hrest x hx'
      exact Reach.trans (Reach.step (Reach.refl a) (Or.inl hab)) hbx

/-- Every vertex of a chosen shortest path is reachable in the expansion
from the auxiliary edge's first endpoint. -/
theorem path_reach_union {g : WGraph} {mstE : List (V × V)} {q : V × V} (hq : q ∈ mstE)
    {p : List V} (hp : spath g q.1 q.2 = some p) :
    ∀ x ∈ p, Reach ((unionEdges g mstE).map (fun e => (e.1, e.2.1))) q.1 x := by
  have hip := isPath_of_mem_allPaths (spath_mem hp)
  intro x hx
  have hzall : ∀ z ∈ p.zip p.tail,
      z ∈ (unionEdges g mstE).map (fun e => (e.1, e.2.1)) := by
    intro z hz
    have hpe := pathEdges_mem_of_zip (g := g) p z hz
    have hU : (z.1, z.2, (ewt g z.1 z.2).getD 0) ∈ unionEdges g mstE :=
      mem_unionEdges.mpr ⟨q, hq, p, hp, hpe⟩
    exact List.mem_map.mpr ⟨_, hU, rfl⟩
  cases p with
  | nil => exact absurd hx (by simp)
  | cons a rest =>
    have ha : a = q.1 := by
      have := hip.1
      simp only [List.head?_cons] at this
      exact Option.some_inj.mp this
    rw [← ha]
    apply reach_along rest a ?_ x hx
    intro z hz
    exact hzall z hz

/-- Reachability along the auxiliary MST lifts to the expansion. -/
theorem mst_reach_union {g : WGraph} (hg : validGraphB g = true) {mstE : List (V × V)}
    (hend : ∀ q ∈ mstE, q.1 ∈ g.verts ∧ q.2 ∈ g.verts) {x y : V}
    (hr : Reach mstE x y) :
    Reach ((unionEdges g mstE).map (fun e => (e.1, e.2.1))) x y := by
  induction hr with
  | refl => exact Reach.refl _
  | @step v' w' _ he ih =>
    refine Reach.trans ih ?_
    rcases he with he | he
    · have hv := hend _ he
      have hs := spath_isSome_valid hg hv.1 hv.2
      rcases Option.isSome_iff_exists.mp hs with ⟨p, hp⟩
      have hlast : w' ∈ p := by
        have := (isPath_of_mem_allPaths (spath_mem hp)).2.1
        exact List.mem_of_mem_getLast? this
      exact path_reach_union he hp w' hlast
    · have hv := hend _ he
      have hs := spath_isSome_valid hg hv.1 hv.2
      rcases Option.isSome_iff_exists.mp hs with ⟨p, hp⟩
      have hlast : v' ∈ p := by
        have := (isPath_of_mem_allPaths (spath_mem hp)).2.1
        exact List.mem_of_mem_getLast? this
      exact (path_reach_union he hp v' hlast).symm

theorem mem_treeVerts {g : WGraph} {T : List V} {es : List (V × V × ℚ)} {v : V} :
    v ∈ treeVerts g T es ↔
      v ∈ g.verts ∧ (v ∈ T ∨ ∃ e ∈ es, e.1 = v ∨ e.2.1 = v) := by
  unfold treeVerts
  rw [List.mem_filter]
  simp

/-- `mst` on a candidate set: its output connects the set by auxiliary edges. -/
theorem mst_spec {g : WGraph} {S : List V} {es : List (V × V)}
    (h : mst g S = some es) :
    List.Sublist es (pairsOf S) ∧ connectsB es S = true := by
  unfold mst at h
  obtain ⟨hsl, hc⟩ := bestSpan_mem_filter h
  rw [List.map_id] at hc
  exact ⟨hsl, hc⟩

/-- The expansion connects the final tree's vertex set. -/
theorem union_connects_treeVerts {g : WGraph} {T : List V}
    (hg : validGraphB g = true) (ht : validTermsB g T = true) {i : ℕ} {es : List (V × V)}
    (hmst : mst g (candSet g T i) = some es) :
    connectsB ((unionEdges g es).map (fun e => (e.1, e.2.1)))
      (treeVerts g T (unionEdges g es)) = true := by
  obtain ⟨hsl, hc⟩ := mst_spec hmst
  have hendS : ∀ q ∈ es, q.1 ∈ candSet g T i ∧ q.2 ∈ candSet g T i := by
    intro q hq
    exact pairsOf_endpoints _ q (hsl.subset hq)
  have hendV : ∀ q ∈ es, q.1 ∈ g.verts ∧ q.2 ∈ g.verts := by
    intro q hq
    exact ⟨candSet_subset_verts g T i _ (hendS q hq).1,
      candSet_subset_verts g T i _ (hendS q hq).2⟩
  -- a hub terminal
  have hT2 := validTerms_len ht
  obtain ⟨t₀, ht₀T⟩ : ∃ t₀, t₀ ∈ T := by
    cases T with
    | nil => simp at hT2
    | cons a b => exact ⟨a, List.mem_cons_self _ _⟩
  have ht₀v : t₀ ∈ g.verts := validTerms_mem ht t₀ ht₀T
  have ht₀S : t₀ ∈ candSet g T i := mem_candSet_of_term ht₀T ht₀v i
  have hub : ∀ v ∈ treeVerts g T (unionEdges g es),
      Reach ((unionEdges g es).map (fun e => (e.1, e.2.1))) t₀ v := by
    intro v hv
    rcases mem_treeVerts.mp hv with ⟨hvv, hvT | ⟨e, heU, hve⟩⟩
    · have hvS : v ∈ candSet g T i := mem_candSet_of_term hvT hvv i
      exact mst_reach_union hg hendV (connectsB_reach hc ht₀S hvS)
    · rcases mem_unionEdges.mp heU with ⟨q, hq, p, hp, hpe⟩
      have hq1S : q.1 ∈ candSet g T i := (hendS q hq).1
      have hbase : Reach ((unionEdges g es).map (fun e => (e.1, e.2.1))) t₀ q.1 :=
        mst_reach_union hg hendV (connectsB_reach hc ht₀S hq1S)
      rcases pathEdges_mem p e hpe with ⟨hz, _⟩
      have h1p : e.1 ∈ p := (List.of_mem_zip hz).1
      have h2p : e.2.1 ∈ p := List.mem_of_mem_tail (List.of_mem_zip hz).2
      rcases hve with hve | hve
      · exact Reach.trans hbase (by rw [← hve]; exact path_reach_union hq hp e.1 h1p)
      · exact Reach.trans hbase (by rw [← hve]; exact path_reach_union hq hp e.2.1 h2p)
  cases hS' : treeVerts g T (unionEdges g es) with
  | nil => rfl
  | cons s₀ rest =>
    rw [connectsB_cons_iff]
    intro v hv
    have hs₀ : s₀ ∈ treeVerts g T (unionEdges g es) := by
      rw [hS']; exact List.mem_cons_self _ _
    have hvm : v ∈ treeVerts g T (unionEdges g es) := by
      rw [hS']; exact hv
    exact Reach.trans (hub s₀ hs₀).symm (hub v hvm)

/-- The final tree is the spanning-structure selection on the expansion. -/
theorem buildTree_spec {g : WGraph} {T : List V}
    (hg : validGraphB g = true) (ht : validTermsB g T = true) {i : ℕ} {es : List (V × V)}
    (hmst : mst g (candSet g T i) = some es) :
    bestSpan (fun e => ((e.2.2 : ℚ) : Qinf)) (fun e => (e.1, e.2.1))
      (unionEdges g es) (treeVerts g T (unionEdges g es)) = some (buildTree g T i) := by
  have hsome := bestSpan_isSome (fun e => ((e.2.2 : ℚ) : Qinf)) (fun e => (e.1, e.2.1))
    (unionEdges g es) (treeVerts g T (unionEdges g es))
    (union_connects_treeVerts hg ht hmst)
  rcases Option.isSome_iff_exists.mp hsome with ⟨tr, htr⟩
  unfold buildTree
  rw [hmst]
  show _ = some ((bestSpan (fun e => ((e.2.2 : ℚ) : Qinf)) (fun e => (e.1, e.2.1))
      (unionEdges g es) (treeVerts g T (unionEdges g es))).getD [])
  rw [htr]
  rfl

/-! ### The solve result and its weight identity -/

theorem bestIdxSeq_spec (g : WGraph) (T : List V) :
    ∃ i, bestIdxSeq g T = some i ∧ i ∈ List.range (subsetCount g T) ∧
      ∀ j ∈ List.range (subsetCount g T),
        score g (candSet g T i) ≤ score g (candSet g T j) := by
  have hpos : 0 < subsetCount g T := Nat.pos_pow_of_pos _ (by norm_num)
  have hne : List.range (subsetCount g T) ≠ [] := by
    intro h
    have := List.length_range (subsetCount g T)
    rw [h] at this
    simp at this
    omega
  have hsome := firstMinBy_isSome (fun i => score g (candSet g T i)) _ hne
  rcases Option.isSome_iff_exists.mp hsome with ⟨i, hi⟩
  exact ⟨i, hi, firstMinBy_mem _ _ _ hi, fun j hj => firstMinBy_le _ _ _ hi j hj⟩

theorem steinertree_ok {g : WGraph} {T : List V} (hg : validGraphB g = true)
    (ht : validTermsB g T = true) (par : Bool) (n : ℕ) :
    steinertree g T par n = .ok (solveCore g T (bestIdxSeq g T)) := by
  unfold steinertree
  rw [if_pos hg, if_pos ht]
  cases par
  · rfl
  · rw [if_pos rfl, bestIdxPar_eq_seq]

/-- The complete shape of a successful solve: the winning index, its
auxiliary MST, and the final spanning tree of the expansion. -/
theorem solve_result {g : WGraph} {T : List V} (hg : validGraphB g = true)
    (ht : validTermsB g T = true) (par : Bool) (n : ℕ) :
    ∃ i es tr,
      bestIdxSeq g T = some i ∧
      i ∈ List.range (subsetCount g T) ∧
      (∀ j ∈ List.range (subsetCount g T),
        score g (candSet g T i) ≤ score g (candSet g T j)) ∧
      mst g (candSet g T i) = some es ∧
      bestSpan (fun e => ((e.2.2 : ℚ) : Qinf)) (fun e => (e.1, e.2.1))
        (unionEdges g es) (treeVerts g T (unionEdges g es)) = some tr ∧
      steinertree g T par n = .ok { tree := tr, weight := score g (candSet g T i) } := by
  rcases bestIdxSeq_spec g T with ⟨i, hi, hir, hmin⟩
  rcases Option.isSome_iff_exists.mp (mst_isSome g (candSet g T i)) with ⟨es, hes⟩
  have hbt := buildTree_spec hg ht hes
  refine ⟨i, es, buildTree g T i, hi, hir, hmin, hes, hbt, ?_⟩
  rw [steinertree_ok hg ht par n, hi]
  rfl

theorem sum_map_flatMap {α β : Type} (f : α → List β) (w : β → Qinf) :
    ∀ l : List α, ((l.flatMap f).map w).sum = (l.map (fun a => ((f a).map w).sum)).sum := by
  intro l
  induction l with
  | nil => rfl
  | cons a l ih =>
    have h1 : (a :: l).flatMap f = f a ++ l.flatMap f := by simp
    rw [h1, List.map_append, List.sum_append, ih, List.map_cons, List.sum_cons]

theorem pathEdges_weight_sum {g : WGraph} :
    ∀ p : List V, p.Chain' (fun a b => hasEdge g a b = true) →
      ((pathEdges g p).map (fun e => ((e.2.2 : ℚ) : Qinf))).sum = pathWeight g p := by
  intro p
  induction p with
  | nil => intro _; rfl
  | cons a rest ih =>
    intro hch
    cases rest with
    | nil =>
      rw [pathWeight_single]
      rfl
    | cons b rest' =>
      have hpe : pathEdges g (a :: b :: rest')
          = (a, b, (ewt g a b).getD 0) :: pathEdges g (b :: rest') := rfl
      rw [hpe, List.map_cons, List.sum_cons, pathWeight_cons_cons,
        ih (List.chain'_cons.mp hch).2]
      have hab : hasEdge g a b = true := (List.chain'_cons.mp hch).1
      unfold hasEdge at hab
      rcases Option.isSome_iff_exists.mp hab with ⟨w, hw⟩
      have h1 : edgeW g a b = ((w : ℚ) : Qinf) := by unfold edgeW; rw [hw]
      have h2 : (ewt g a b).getD 0 = w := by rw [hw]; rfl
      rw [h1, h2]

/-- Upper half of the weight identity: the final tree never weighs more than
the recorded score. -/
theorem treeWeight_le_score {g : WGraph} {T : List V} (hg : validGraphB g = true)
    (ht : validTermsB g T = true) {i : ℕ} {es : List (V × V)} {tr : List (V × V × ℚ)}
    (hmst : mst g (candSet g T i) = some es)
    (htr : bestSpan (fun e => ((e.2.2 : ℚ) : Qinf)) (fun e => (e.1, e.2.1))
      (unionEdges g es) (treeVerts g T (unionEdges g es)) = some tr) :
    (tr.map (fun e => ((e.2.2 : ℚ) : Qinf))).sum ≤ score g (candSet g T i) := by
  have hUconn := union_connects_treeVerts hg ht hmst
  have h1 : (tr.map (fun e => ((e.2.2 : ℚ) : Qinf))).sum ≤
      ((unionEdges g es).map (fun e => ((e.2.2 : ℚ) : Qinf))).sum :=
    bestSpan_le htr (unionEdges g es) (List.Sublist.refl _) hUconn
  -- the deduplicated union weighs no more than the raw concatenation
  have hflat :
      ((unionEdges g es).map (fun e => ((e.2.2 : ℚ) : Qinf))).sum ≤
      (((es.flatMap (fun q =>
        match spath g q.1 q.2 with
        | some p => pathEdges g p
        | none => [])).map (fun e => ((e.2.2 : ℚ) : Qinf))).sum) := by
    apply List.Sublist.sum_le_sum
    · exact (List.dedup_sublist _).map _
    · intro x hx
      rcases List.mem_map.mp hx with ⟨e, he, rfl⟩
      have heU : e ∈ unionEdges g es := by
        unfold unionEdges
        rw [List.mem_dedup]
        exact he
      have := (unionEdges_props hg heU).2.2.2.2
      exact_mod_cast this
  -- each expanded path weighs exactly its auxiliary distance
  have hsum : (((es.flatMap (fun q =>
      match spath g q.1 q.2 with
      | some p => pathEdges g p
      | none => [])).map (fun e => ((e.2.2 : ℚ) : Qinf))).sum)
      = (es.map (fun q => dist g q.1 q.2)).sum := by
    rw [sum_map_flatMap]
    congr 1
    apply List.map_congr_left
    intro q hq
    obtain ⟨hsl, _⟩ := mst_spec hmst
    have hqe := pairsOf_endpoints _ q (hsl.subset hq)
    have hq1 : q.1 ∈ g.verts := candSet_subset_verts g T i _ hqe.1
    have hq2 : q.2 ∈ g.verts := candSet_subset_verts g T i _ hqe.2
    rcases Option.isSome_iff_exists.mp (spath_isSome_valid hg hq1 hq2) with ⟨p, hp⟩
    rw [hp]
    show ((pathEdges g p).map (fun e => ((e.2.2 : ℚ) : Qinf))).sum = dist g q.1 q.2
    rw [pathEdges_weight_sum p (isPath_of_mem_allPaths (spath_mem hp)).chain]
    exact spath_eq_dist hp
  rw [score_eq_of_mst hmst]
  calc (tr.map (fun e => ((e.2.2 : ℚ) : Qinf))).sum
      ≤ ((unionEdges g es).map (fun e => ((e.2.2 : ℚ) : Qinf))).sum := h1
    _ ≤ _ := hflat
    _ = (es.map (fun q => dist g q.1 q.2)).sum := hsum

theorem normTo_pair (S : List V) (e : V × V × ℚ) :
    normTo S e = (e.1, e.2.1) ∨ normTo S e = (e.2.1, e.1) := by
  unfold normTo
  split
  · exact Or.inl rfl
  · exact Or.inr rfl

theorem normTo_mem {S : List V} {e : V × V × ℚ}
    (h1 : e.1 ∈ S) (h2 : e.2.1 ∈ S) (hne : e.1 ≠ e.2.1) : normTo S e ∈ pairsOf S := by
  unfold normTo
  split
  · assumption
  · rcases mem_pairsOf_or S e.1 e.2.1 h1 h2 hne with h | h
    · exact absurd h (by assumption)
    · exact h

theorem dist_normTo (g : WGraph) (S : List V) (e : V × V × ℚ) :
    dist g (normTo S e).1 (normTo S e).2 = dist g e.1 e.2.1 := by
  rcases normTo_pair S e with h | h <;> rw [h]
  exact dist_symm g e.2.1 e.1

/-- The final tree's vertex set is itself an enumerated candidate subset. -/
theorem treeVerts_eq_candSet (g : WGraph) (T : List V) (U : List (V × V × ℚ)) :
    ∃ i', i' < subsetCount g T ∧ candSet g T i' = treeVerts g T U := by
  have hsub : List.Sublist ((nts g T).filter (fun v => decide (v ∈ treeVerts g T U)))
      (nts g T) := List.filter_sublist _
  rcases selectBits_complete (nts g T) _ hsub with ⟨i', hlt, hsel⟩
  refine ⟨i', hlt, ?_⟩
  show g.verts.filter _ = g.verts.filter _
  apply List.filter_congr
  intro v hv
  rw [hsel]
  apply Bool.eq_iff_iff.mpr
  simp only [Bool.or_eq_true, decide_eq_true_eq, List.mem_filter, List.any_eq_true,
    beq_iff_eq]
  constructor
  · rintro (hT | ⟨_, hvt⟩)
    · exact Or.inl hT
    · rcases (mem_treeVerts.mp hvt).2 with hT | ⟨e, he, hve⟩
      · exact Or.inl hT
      · refine Or.inr ⟨e, he, ?_⟩
        rcases hve with h | h
        · exact Or.inl h
        · exact Or.inr h
  · rintro (hT | ⟨e, he, hve⟩)
    · exact Or.inl hT
    · by_cases hvT : v ∈ T
      · exact Or.inl hvT
      · refine Or.inr ⟨?_, ?_⟩
        · unfold nts
          rw [List.mem_filter]
          exact ⟨hv, by simp [hvT]⟩
        · apply mem_treeVerts.mpr
          refine ⟨hv, Or.inr ⟨e, he, ?_⟩⟩
          rcases hve with h | h
          · exact Or.inl h
          · exact Or.inr h

/-- Lower half of the weight identity: some enumerated subset scores at most
the final tree's weight. -/
theorem exists_idx_score_le_treeWeight {g : WGraph} {T : List V}
    (hg : validGraphB g = true) {i : ℕ} {es : List (V × V)} {tr : List (V × V × ℚ)}
    (hmst : mst g (candSet g T i) = some es)
    (htr : bestSpan (fun e => ((e.2.2 : ℚ) : Qinf)) (fun e => (e.1, e.2.1))
      (unionEdges g es) (treeVerts g T (unionEdges g es)) = some tr) :
    ∃ i', i' ∈ List.range (subsetCount g T) ∧
      score g (candSet g T i') ≤ (tr.map (fun e => ((e.2.2 : ℚ) : Qinf))).sum := by
  obtain ⟨hsl, hconn⟩ := bestSpan_mem_filter htr
  have hw : ∀ a ∈ unionEdges g es, (0 : Qinf) ≤ ((a.2.2 : ℚ) : Qinf) := by
    intro a ha
    have := (unionEdges_props hg ha).2.2.2.2
    exact_mod_cast this
  have hbridge := bestSpan_bridge hw htr
  have hset : ∀ e ∈ tr, e.1 ∈ treeVerts g T (unionEdges g es) ∧
      e.2.1 ∈ treeVerts g T (unionEdges g es) ∧ e.1 ≠ e.2.1 := by
    intro e he
    have heU := hsl.subset he
    obtain ⟨_, hne, hv1, hv2, _⟩ := unionEdges_props hg heU
    exact ⟨mem_treeVerts.mpr ⟨hv1, Or.inr ⟨e, heU, Or.inl rfl⟩⟩,
      mem_treeVerts.mpr ⟨hv2, Or.inr ⟨e, heU, Or.inr rfl⟩⟩, hne⟩
  -- the mapped pairs are distinct aux pairs of the tree's vertex set
  have hinj : ∀ x ∈ tr, ∀ y ∈ tr,
      normTo (treeVerts g T (unionEdges g es)) x
        = normTo (treeVerts g T (unionEdges g es)) y → x = y := by
    intro x hx y hy hxy
    by_contra hne
    have hpair : (x.1 = y.1 ∧ x.2.1 = y.2.1) ∨ (x.1 = y.2.1 ∧ x.2.1 = y.1) := by
      rcases normTo_pair (treeVerts g T (unionEdges g es)) x with hx' | hx' <;>
        rcases normTo_pair (treeVerts g T (unionEdges g es)) y with hy' | hy' <;>
        rw [hx', hy'] at hxy <;> rw [Prod.mk.injEq] at hxy
      · exact Or.inl hxy
      · exact Or.inr hxy
      · exact Or.inr ⟨hxy.2.symm.symm, hxy.1⟩
      · exact Or.inl ⟨hxy.2.trans rfl, hxy.1.trans rfl⟩
    apply hbridge y hy
    show Reach _ y.1 y.2.1
    rcases hpair with ⟨h1, h2⟩ | ⟨h1, h2⟩
    · refine Reach.step (Reach.refl _) (Or.inl ?_)
      rw [← h1, ← h2]
      refine List.mem_map.mpr ⟨x, ?_, rfl⟩
      exact (List.mem_erase_of_ne hne).mpr hx
    · refine Reach.step (Reach.refl _) (Or.inr ?_)
      rw [← h1, ← h2]
      refine List.mem_map.mpr ⟨x, ?_, rfl⟩
      exact (List.mem_erase_of_ne hne).mpr hx
  have hMnodup : ((tr.map (normTo (treeVerts g T (unionEdges g es))))).Nodup := by
    apply List.Nodup.map_on hinj
    have hUnodup : (unionEdges g es).Nodup := List.nodup_dedup _
    exact hUnodup.sublist hsl
  have hMsub : ∀ q ∈ tr.map (normTo (treeVerts g T (unionEdges g es))),
      q ∈ pairsOf (treeVerts g T (unionEdges g es)) := by
    intro q hq
    rcases List.mem_map.mp hq with ⟨e, he, rfl⟩
    obtain ⟨h1, h2, hne⟩ := hset e he
    exact normTo_mem h1 h2 hne
  rcases List.subperm_of_subset hMnodup hMsub with ⟨es'', hperm, hsl''⟩
  have hconn'' : connectsB es'' (treeVerts g T (unionEdges g es)) = true := by
    apply connectsB_of_unordered ?_ hconn
    intro a b hab
    have hget : ∀ (c d : V), ∀ e ∈ tr, e.1 = c → e.2.1 = d →
        (c, d) ∈ es'' ∨ (d, c) ∈ es'' := by
      intro c d e he h1 h2
      rcases normTo_pair (treeVerts g T (unionEdges g es)) e with hn | hn
      · left
        apply hperm.mem_iff.mpr
        apply List.mem_map.mpr
        exact ⟨e, he, by rw [hn, h1, h2]⟩
      · right
        apply hperm.mem_iff.mpr
        apply List.mem_map.mpr
        exact ⟨e, he, by rw [hn, h1, h2]⟩
    rcases hab with h | h
    · rcases List.mem_map.mp h with ⟨e, he, heq⟩
      rw [Prod.mk.injEq] at heq
      exact hget a b e he heq.1 heq.2
    · rcases List.mem_map.mp h with ⟨e, he, heq⟩
      rw [Prod.mk.injEq] at heq
      rcases hget b a e he heq.1 heq.2 with h' | h'
      · exact Or.inr h'
      · exact Or.inl h'
  have hscore : score g (treeVerts g T (unionEdges g es))
      ≤ (es''.map (fun q => dist g q.1 q.2)).sum :=
    score_le_of_connects hsl'' hconn''
  have hsum1 : (es''.map (fun q => dist g q.1 q.2)).sum
      = ((tr.map (normTo (treeVerts g T (unionEdges g es)))).map
          (fun q => dist g q.1 q.2)).sum :=
    (hperm.map _).sum_eq
  have hsum2 : ((tr.map (normTo (treeVerts g T (unionEdges g es)))).map
      (fun q => dist g q.1 q.2)).sum = (tr.map (fun e => dist g e.1 e.2.1)).sum := by
    rw [List.map_map]
    apply congrArg
    apply List.map_congr_left
    intro e _
    exact dist_normTo g _ e
  have hpt : ∀ e ∈ tr, dist g e.1 e.2.1 ≤ ((e.2.2 : ℚ) : Qinf) := by
    intro e he
    have heU := hsl.subset he
    obtain ⟨hewt, hne, hv1, hv2, _⟩ := unionEdges_props hg heU
    have hip : IsPath g e.1 e.2.1 [e.1, e.2.1] := by
      refine IsPath.of_chain rfl rfl (by simp [hne]) ?_
      rw [List.chain'_cons]
      refine ⟨?_, by simp⟩
      unfold hasEdge
      rw [hewt]
      rfl
    have hmem := mem_allPaths_of_isPath g e.1 e.2.1 _ hip (by
      intro x hx
      rcases List.mem_cons.mp hx with h | h
      · rw [h]; exact hv1
      · have : x = e.2.1 := by simpa using h
        rw [this]; exact hv2)
    have hd := dist_le_pathWeight hmem
    rw [pathWeight_cons_cons, pathWeight_single, add_zero] at hd
    have hedge : edgeW g e.1 e.2.1 = ((e.2.2 : ℚ) : Qinf) := by
      unfold edgeW
      rw [hewt]
    rw [hedge] at hd
    exact hd
  have hfinal : (tr.map (fun e => dist g e.1 e.2.1)).sum
      ≤ (tr.map (fun e => ((e.2.2 : ℚ) : Qinf))).sum :=
    List.sum_le_sum hpt
  rcases treeVerts_eq_candSet g T (unionEdges g es) with ⟨i', hlt, hcs⟩
  refine ⟨i', List.mem_range.mpr hlt, ?_⟩
  rw [hcs]
  calc score g (treeVerts g T (unionEdges g es))
      ≤ (es''.map (fun q => dist g q.1 q.2)).sum := hscore
    _ = _ := hsum1
    _ = (tr.map (fun e => dist g e.1 e.2.1)).sum := hsum2
    _ ≤ _ := hfinal

/-- The weight identity (§3, §4.4): the recorded weight of the result is
exactly the sum of the final tree's edge weights. -/
theorem weight_eq_treeWeight {g : WGraph} {T : List V} (hg : validGraphB g = true)
    (ht : validTermsB g T = true) {i : ℕ} {es : List (V × V)} {tr : List (V × V × ℚ)}
    (hmin : ∀ j ∈ List.range (subsetCount g T),
      score g (candSet g T i) ≤ score g (candSet g T j))
    (hmst : mst g (candSet g T i) = some es)
    (htr : bestSpan (fun e => ((e.2.2 : ℚ) : Qinf)) (fun e => (e.1, e.2.1))
      (unionEdges g es) (treeVerts g T (unionEdges g es)) = some tr) :
    score g (candSet g T i) = (tr.map (fun e => ((e.2.2 : ℚ) : Qinf))).sum := by
  apply le_antisymm
  · rcases exists_idx_score_le_treeWeight hg hmst htr with ⟨i', hi', hle⟩
    exact le_trans (hmin i' hi') hle
  · exact treeWeight_le_score hg ht hmst htr

/-- A duplicate-free walk along tree edges weighs at most the whole tree. -/
theorem pathWeight_le_treeSum {g : WGraph} :
    ∀ (p : List V) (tr : List (V × V × ℚ)), p.Nodup →
      (∀ q ∈ p.zip p.tail, ∃ e ∈ tr,
        (e.1 = q.1 ∧ e.2.1 = q.2) ∨ (e.1 = q.2 ∧ e.2.1 = q.1)) →
      (∀ e ∈ tr, ewt g e.1 e.2.1 = some e.2.2) →
      (∀ e ∈ tr, (0 : Qinf) ≤ ((e.2.2 : ℚ) : Qinf)) →
      pathWeight g p ≤ (tr.map (fun e => ((e.2.2 : ℚ) : Qinf))).sum := by
  intro p
  induction p with
  | nil =>
    intro tr _ _ _ hnn
    rw [pathWeight_nil]
    apply List.sum_nonneg
    intro x hx
    rcases List.mem_map.mp hx with ⟨e, he, rfl⟩
    exact hnn e he
  | cons a rest ih =>
    intro tr hnd hcov hewt hnn
    cases rest with
    | nil =>
      rw [pathWeight_single]
      apply List.sum_nonneg
      intro x hx
      rcases List.mem_map.mp hx with ⟨e, he, rfl⟩
      exact hnn e he
    | cons b rest' =>
      have hz : (a :: b :: rest').zip (a :: b :: rest').tail
          = (a, b) :: ((b :: rest').zip (b :: rest').tail) := rfl
      rw [pathWeight_cons_cons]
      obtain ⟨e, he, hor₀⟩ := hcov (a, b) (by rw [hz]; exact List.mem_cons_self _ _)
      have hor : (e.1 = a ∧ e.2.1 = b) ∨ (e.1 = b ∧ e.2.1 = a) := hor₀
      have hew : edgeW g a b = ((e.2.2 : ℚ) : Qinf) := by
        rcases hor with ⟨h1, h2⟩ | ⟨h1, h2⟩
        · have hwab : ewt g a b = some e.2.2 := by
            rw [← h1, ← h2]
            exact hewt e he
          unfold edgeW
          rw [hwab]
        · have hwab : ewt g a b = some e.2.2 := by
            rw [← h2, ← h1, ewt_symm]
            exact hewt e he
          unfold edgeW
          rw [hwab]
      have hanotin : a ∉ b :: rest' := (List.nodup_cons.mp hnd).1
      have hcov' : ∀ q ∈ (b :: rest').zip (b :: rest').tail, ∃ e' ∈ tr.erase e,
          (e'.1 = q.1 ∧ e'.2.1 = q.2) ∨ (e'.1 = q.2 ∧ e'.2.1 = q.1) := by
        intro q hq
        obtain ⟨e', he', hor'⟩ := hcov q (by rw [hz]; exact List.mem_cons_of_mem _ hq)
        have hq1 : q.1 ∈ b :: rest' := (List.of_mem_zip hq).1
        have hq2 : q.2 ∈ b :: rest' := List.mem_of_mem_tail (List.of_mem_zip hq).2
        have hee : e' ≠ e := by
          intro heq
          subst heq
          -- then the pair {a, b} coincides with {q.1, q.2}, forcing a ∈ b :: rest'
          rcases hor with ⟨h1, h2⟩ | ⟨h1, h2⟩ <;> rcases hor' with ⟨h1', h2'⟩ | ⟨h1', h2'⟩
          · exact hanotin (by rw [← h1, h1']; exact hq1)
          · exact hanotin (by rw [← h1, h1']; exact hq2)
          · exact hanotin (by rw [← h2, h2']; exact hq2)
          · exact hanotin (by rw [← h2, h2']; exact hq1)
        exact ⟨e', (List.mem_erase_of_ne hee).mpr he', hor'⟩
      have hrec := ih (tr.erase e) (List.nodup_cons.mp hnd).2 hcov'
        (fun e' he' => hewt e' (List.erase_subset e tr he'))
        (fun e' he' => hnn e' (List.erase_subset e tr he'))
      calc edgeW g a b + pathWeight g (b :: rest')
          ≤ ((e.2.2 : ℚ) : Qinf) + ((tr.erase e).map (fun e => ((e.2.2 : ℚ) : Qinf))).sum := by
            rw [hew]
            exact add_le_add_left hrec _
        _ = (tr.map (fun e => ((e.2.2 : ℚ) : Qinf))).sum :=
            (sum_map_erase (fun e => ((e.2.2 : ℚ) : Qinf)) tr e he).symm

theorem ewt_addEdge_of_isSome {g : WGraph} {u v : V} (a b : V) (w : ℚ)
    (h : (ewt g u v).isSome) : ewt (addEdge g a b w) u v = ewt g u v := by
  unfold ewt at h ⊢
  show ((g.edges ++ [(a, b, w)]).find? _).map _ = _
  rw [List.find?_append]
  rw [Option.isSome_map'] at h
  rcases Option.isSome_iff_exists.mp h with ⟨e, he⟩
  rw [he]
  rfl

theorem ewt_addEdge_of_ne {g : WGraph} {u v : V} {a b : V} (w : ℚ)
    (h : ¬((u = a ∧ v = b) ∨ (u = b ∧ v = a))) :
    ewt (addEdge g a b w) u v = ewt g u v := by
  unfold ewt
  show ((g.edges ++ [(a, b, w)]).find? _).map _ = _
  rw [List.find?_append]
  have hnone : ([(a, b, w)].find? (fun e =>
      ((e.1 == u) && (e.2.1 == v)) || ((e.1 == v) && (e.2.1 == u)))) = none := by
    rw [List.find?_eq_none]
    intro e he
    have : e = (a, b, w) := by simpa using he
    rw [this]
    simp only [Bool.or_eq_true, Bool.and_eq_true, beq_iff_eq, not_or, not_and]
    constructor
    · intro hau hbv
      exact h (Or.inl ⟨hau.symm, hbv.symm⟩)
    · intro hav hbu
      exact h (Or.inr ⟨hbu.symm, hav.symm⟩)
  rw [hnone, Option.or_none]

theorem ewt_addEdge_new {g : WGraph} {a b : V} (w : ℚ)
    (h : ¬(ewt g a b).isSome = true) : ewt (addEdge g a b w) a b = some w := by
  unfold ewt at h ⊢
  show ((g.edges ++ [(a, b, w)]).find? _).map _ = _
  rw [List.find?_append]
  have hnone : g.edges.find? (fun e =>
      ((e.1 == a) && (e.2.1 == b)) || ((e.1 == b) && (e.2.1 == a))) = none := by
    cases hf : g.edges.find? (fun e =>
        ((e.1 == a) && (e.2.1 == b)) || ((e.1 == b) && (e.2.1 == a))) with
    | none => rfl
    | some e =>
      rw [Option.isSome_map'] at h
      rw [hf] at h
      simp at h
  rw [hnone]
  simp

theorem pathWeight_addEdge {g : WGraph} (a b : V) (w : ℚ) :
    ∀ p : List V, p.Chain' (fun x y => hasEdge g x y = true) →
      pathWeight (addEdge g a b w) p = pathWeight g p := by
  intro p
  induction p with
  | nil => intro _; rfl
  | cons x rest ih =>
    intro hch
    cases rest with
    | nil => rw [pathWeight_single, pathWeight_single]
    | cons y rest' =>
      rw [pathWeight_cons_cons, pathWeight_cons_cons, ih (List.chain'_cons.mp hch).2]
      have hxy : hasEdge g x y = true := (List.chain'_cons.mp hch).1
      unfold hasEdge at hxy
      have heq : ewt (addEdge g a b w) x y = ewt g x y :=
        ewt_addEdge_of_isSome a b w hxy
      unfold edgeW
      rw [heq]

theorem isPath_addEdge {g : WGraph} {u v : V} {p : List V} (a b : V) (w : ℚ)
    (h : IsPath g u v p) : IsPath (addEdge g a b w) u v p := by
  refine IsPath.of_chain h.1 h.2.1 h.2.2.1 ?_
  apply List.Chain'.imp ?_ h.chain
  intro x y hxy
  unfold hasEdge at hxy ⊢
  rw [ewt_addEdge_of_isSome a b w hxy]
  exact hxy

theorem mem_allPaths_addEdge {g : WGraph} {u v : V} {p : List V} (a b : V) (w : ℚ)
    (h : p ∈ allPaths g u v) : p ∈ allPaths (addEdge g a b w) u v := by
  rw [mem_allPaths_iff] at h ⊢
  exact ⟨h.1, isPath_addEdge a b w h.2⟩

theorem dist_addEdge_le (g : WGraph) (a b : V) (w : ℚ) (u v : V) :
    dist (addEdge g a b w) u v ≤ dist g u v := by
  cases hs : spath g u v with
  | none =>
    have : dist g u v = ⊤ := by unfold dist; rw [hs]
    rw [this]
    exact le_top
  | some p =>
    have hmem := spath_mem hs
    have hd := dist_le_pathWeight (mem_allPaths_addEdge a b w hmem)
    rw [pathWeight_addEdge a b w p (isPath_of_mem_allPaths hmem).chain] at hd
    have : dist g u v = pathWeight g p := by unfold dist; rw [hs]
    rw [this]
    exact hd

/-- A strict improvement of a distance must route through the new edge, so
it cannot beat the new edge's own weight. -/
theorem dist_addEdge_lt {g : WGraph} {a b : V} {w : ℚ} {u v : V}
    (hnew : ¬ hasEdge g a b = true)
    (hw' : ∀ e ∈ (addEdge g a b w).edges, 0 ≤ e.2.2)
    (hlt : dist (addEdge g a b w) u v < dist g u v) :
    ((w : ℚ) : Qinf) ≤ dist (addEdge g a b w) u v := by
  cases hs' : spath (addEdge g a b w) u v with
  | none =>
    have hd' : dist (addEdge g a b w) u v = ⊤ := by unfold dist; rw [hs']
    rw [hd'] at hlt
    exact absurd hlt (by simp)
  | some p' =>
    have hd' : dist (addEdge g a b w) u v = pathWeight (addEdge g a b w) p' := by
      unfold dist; rw [hs']
    have hmem' := spath_mem hs'
    have hip' := isPath_of_mem_allPaths hmem'
    by_cases hthrough : ∃ q ∈ p'.zip p'.tail, (q.1 = a ∧ q.2 = b) ∨ (q.1 = b ∧ q.2 = a)
    · rcases hthrough with ⟨q, hq, hqab⟩
      have hbound := edgeW_le_pathWeight (g := addEdge g a b w) hw' p' q.1 q.2 hq
      have hedge : edgeW (addEdge g a b w) q.1 q.2 = ((w : ℚ) : Qinf) := by
        rcases hqab with ⟨h1, h2⟩ | ⟨h1, h2⟩
        · rw [h1, h2]
          unfold edgeW
          rw [ewt_addEdge_new w hnew]
        · rw [h1, h2]
          unfold edgeW
          rw [ewt_symm, ewt_addEdge_new w hnew]
      rw [hd']
      rw [hedge] at hbound
      exact hbound
    · exfalso
      have hsame : ∀ q ∈ p'.zip p'.tail, ewt (addEdge g a b w) q.1 q.2 = ewt g q.1 q.2 := by
        intro q hq
        apply ewt_addEdge_of_ne
        intro hcon
        exact hthrough ⟨q, hq, hcon⟩
      have hchain : p'.Chain' (fun x y => hasEdge g x y = true) := by
        apply chain_of_zip_pairs
        intro q hq
        have := zip_pairs_of_chain p' hip'.chain q hq
        unfold hasEdge at this ⊢
        rw [← hsame q hq]
        exact this
      have hipg : IsPath g u v p' := IsPath.of_chain hip'.1 hip'.2.1 hip'.2.2.1 hchain
      have hsubv : ∀ x ∈ p', x ∈ g.verts := by
        intro x hx
        exact allPaths_subset_verts hmem' x hx
      have hmemg : p' ∈ allPaths g u v := mem_allPaths_of_isPath g u v p' hipg hsubv
      have hge := dist_le_pathWeight hmemg
      have hpw : pathWeight (addEdge g a b w) p' = pathWeight g p' :=
        pathWeight_addEdge a b w p' hchain
      rw [hd', hpw] at hlt
      exact absurd (lt_of_le_of_lt hge hlt) (lt_irrefl _)

theorem candSet_addEdge (g : WGraph) (T : List V) (a b : V) (w : ℚ) (i : ℕ) :
    candSet (addEdge g a b w) T i = candSet g T i := rfl

theorem subsetCount_addEdge (g : WGraph) (T : List V) (a b : V) (w : ℚ) :
    subsetCount (addEdge g a b w) T = subsetCount g T := rfl

theorem score_nonneg {g : WGraph} (hw : ∀ e ∈ g.edges, 0 ≤ e.2.2) (S : List V) :
    0 ≤ score g S := by
  cases hm : mst g S with
  | none =>
    unfold score
    rw [hm]
    exact le_top
  | some es =>
    rw [score_eq_of_mst hm]
    apply List.sum_nonneg
    intro x hx
    rcases List.mem_map.mp hx with ⟨q, _, rfl⟩
    exact dist_nonneg hw q.1 q.2

theorem score_addEdge_le (g : WGraph) (a b : V) (w : ℚ) (S : List V) :
    score (addEdge g a b w) S ≤ score g S := by
  rcases Option.isSome_iff_exists.mp (mst_isSome g S) with ⟨es, hes⟩
  obtain ⟨hsl, hc⟩ := mst_spec hes
  have h1 : score (addEdge g a b w) S
      ≤ (es.map (fun q => dist (addEdge g a b w) q.1 q.2)).sum :=
    score_le_of_connects hsl hc
  have h2 : (es.map (fun q => dist (addEdge g a b w) q.1 q.2)).sum
      ≤ (es.map (fun q => dist g q.1 q.2)).sum :=
    List.sum_le_sum (fun q _ => dist_addEdge_le g a b w q.1 q.2)
  rw [score_eq_of_mst hes]
  exact le_trans h1 h2

theorem score_addEdge_ge {g : WGraph} {a b : V} {w : ℚ}
    (hnew : ¬ hasEdge g a b = true)
    (hw' : ∀ e ∈ (addEdge g a b w).edges, 0 ≤ e.2.2) (S : List V) :
    score g S ≤ score (addEdge g a b w) S ∨
      ((w : ℚ) : Qinf) ≤ score (addEdge g a b w) S := by
  rcases Option.isSome_iff_exists.mp (mst_isSome (addEdge g a b w) S) with ⟨es', hes'⟩
  obtain ⟨hsl', hc'⟩ := mst_spec hes'
  by_cases hall : ∀ q ∈ es', dist (addEdge g a b w) q.1 q.2 = dist g q.1 q.2
  · left
    have h1 : score g S ≤ (es'.map (fun q => dist g q.1 q.2)).sum :=
      score_le_of_connects hsl' hc'
    have h2 : (es'.map (fun q => dist g q.1 q.2)).sum
        = (es'.map (fun q => dist (addEdge g a b w) q.1 q.2)).sum := by
      apply congrArg
      apply List.map_congr_left
      intro q hq
      exact (hall q hq).symm
    rw [score_eq_of_mst hes']
    rw [h2] at h1
    exact h1
  · right
    push_neg at hall
    rcases hall with ⟨q, hq, hne⟩
    have hlt : dist (addEdge g a b w) q.1 q.2 < dist g q.1 q.2 :=
      lt_of_le_of_ne (dist_addEdge_le g a b w q.1 q.2) hne
    have hW := dist_addEdge_lt hnew hw' hlt
    rw [score_eq_of_mst hes']
    refine le_trans hW ?_
    apply List.single_le_sum ?_ _ (List.mem_map.mpr ⟨q, hq, rfl⟩)
    intro x hx
    rcases List.mem_map.mp hx with ⟨q', _, rfl⟩
    exact dist_nonneg hw' q'.1 q'.2

theorem hasEdge_of_pair {g : WGraph} {a b : V} {e : V × V × ℚ} (he : e ∈ g.edges)
    (hp : (e.1 = a ∧ e.2.1 = b) ∨ (e.1 = b ∧ e.2.1 = a)) : hasEdge g a b = true := by
  unfold hasEdge ewt
  rw [Option.isSome_map', List.find?_isSome]
  refine ⟨e, he, ?_⟩
  rcases hp with ⟨h1, h2⟩ | ⟨h1, h2⟩ <;> simp [h1, h2]

/-- Adding a fresh non-negative edge between listed vertices preserves
validity. -/
theorem validGraphB_addEdge {g : WGraph} {a b : V} {w : ℚ}
    (hg : validGraphB g = true) (ha : a ∈ g.verts) (hb : b ∈ g.verts)
    (hab : a ≠ b) (hnew : ¬ hasEdge g a b = true) (hw : 0 ≤ w) :
    validGraphB (addEdge g a b w) = true := by
  have hnd := validGraph_nodup hg
  have hed := validGraph_edges hg
  have hcn := validGraph_connected hg
  have hnc : ∀ e ∈ g.edges, ∀ f ∈ g.edges,
      ¬(((e.1 = f.1 ∧ e.2.1 = f.2.1) ∨ (e.1 = f.2.1 ∧ e.2.1 = f.1)) ∧ e.2.2 ≠ f.2.2) := by
    have h := hg
    unfold validGraphB at h
    simp only [Bool.and_eq_true, List.all_eq_true, Bool.not_eq_true',
      Bool.and_eq_false_iff, decide_eq_true_eq, decide_eq_false_iff_not] at h
    intro e he f hf
    have := h.1.2 e he f hf
    intro hcon
    rcases this with h' | h'
    · exact h' hcon.1
    · exact h' hcon.2
  unfold validGraphB
  simp only [Bool.and_eq_true, List.all_eq_true, Bool.not_eq_true',
    Bool.and_eq_false_iff, decide_eq_true_eq, decide_eq_false_iff_not]
  refine ⟨⟨⟨hnd, ?_⟩, ?_⟩, ?_⟩
  · -- per-edge well-formedness
    intro e he
    show ((e.1 ∈ g.verts ∧ e.2.1 ∈ g.verts) ∧ e.1 ≠ e.2.1) ∧ 0 ≤ e.2.2
    rcases List.mem_append.mp he with he' | he'
    · have := hed e he'
      tauto
    · have : e = (a, b, w) := by simpa using he'
      rw [this]
      exact ⟨⟨⟨ha, hb⟩, hab⟩, hw⟩
  · -- no conflicting duplicate edges
    intro e he f hf
    rcases List.mem_append.mp he with he' | he' <;>
      rcases List.mem_append.mp hf with hf' | hf'
    · have := hnc e he' f hf'
      tauto
    · have hfn : f = (a, b, w) := by simpa using hf'
      left
      intro hcon
      apply hnew
      apply hasEdge_of_pair he'
      rw [hfn] at hcon
      exact hcon
    · have hen : e = (a, b, w) := by simpa using he'
      left
      intro hcon
      apply hnew
      apply hasEdge_of_pair hf'
      rw [hen] at hcon
      rcases hcon with ⟨h1, h2⟩ | ⟨h1, h2⟩
      · exact Or.inl ⟨h1.symm, h2.symm⟩
      · exact Or.inr ⟨h2.symm, h1.symm⟩
    · have hen : e = (a, b, w) := by simpa using he'
      have hfn : f = (a, b, w) := by simpa using hf'
      right
      rw [hen, hfn]
      simp
  · -- connectivity is preserved by adding an edge
    show connectsB ((g.edges ++ [(a, b, w)]).map (fun e => (e.1, e.2.1))) g.verts = true
    cases hV : g.verts with
    | nil => rfl
    | cons v₀ rest =>
      rw [connectsB_cons_iff]
      intro v hv
      rw [hV] at hcn
      have hr := (connectsB_cons_iff _ _ _).mp hcn v hv
      apply Reach.mono ?_ hr
      intro q hq
      rw [List.map_append]
      exact List.mem_append.mpr (Or.inl hq)

/-! ### Helper facts for the claim-level theorems -/

theorem sliceIdx_length : ∀ (n start total : ℕ), (sliceIdx start total n).length = n := by
  intro n
  induction n with
  | zero => intro start total; rfl
  | succ m ih =>
    intro start total
    cases m with
    | zero => rfl
    | succ k =>
      show (sliceIdx start total (k + 2)).length = k + 2
      unfold sliceIdx
      show (List.range' start ((total + (k + 1)) / (k + 2)) ::
        sliceIdx (start + (total + (k + 1)) / (k + 2))
          (total - (total + (k + 1)) / (k + 2)) (k + 1)).length = k + 2
      rw [List.length_cons, ih]

/-- Candidate subset number 0 is the terminal set alone. -/
theorem candSet_zero (g : WGraph) (T : List V) (v : V) :
    v ∈ candSet g T 0 ↔ v ∈ g.verts ∧ v ∈ T := by
  rw [mem_candSet_iff, selectBits_zero]
  simp

/-- A duplicate-free list whose members are exactly `{a, b}` is one of the
two orderings of the pair. -/
theorem list_pair_eq {L : List V} {a b : V} (hnd : L.Nodup) (hab : a ≠ b)
    (hmem : ∀ v, v ∈ L ↔ v = a ∨ v = b) : L = [a, b] ∨ L = [b, a] := by
  cases L with
  | nil => exact absurd ((hmem a).mpr (Or.inl rfl)) (by simp)
  | cons x t =>
    cases t with
    | nil =>
      have hax : a = x := by
        have := (hmem a).mpr (Or.inl rfl)
        simpa using this
      have hbx : b = x := by
        have := (hmem b).mpr (Or.inr rfl)
        simpa using this
      exact absurd (hax.trans hbx.symm) hab
    | cons y rest =>
      have hxy : x ≠ y := by
        intro h
        exact (List.nodup_cons.mp hnd).1 (h ▸ List.mem_cons_self y rest)
      have hx : x = a ∨ x = b := (hmem x).mp (List.mem_cons_self _ _)
      have hy : y = a ∨ y = b :=
        (hmem y).mp (List.mem_cons_of_mem _ (List.mem_cons_self _ _))
      have hrest : rest = [] := by
        cases rest with
        | nil => rfl
        | cons z rest' =>
          have hz : z = a ∨ z = b := (hmem z).mp (by simp)
          have hzx : z ≠ x := by
            intro h
            exact (List.nodup_cons.mp hnd).1 (by rw [← h]; simp)
          have hzy : z ≠ y := by
            intro h
            exact (List.nodup_cons.mp (List.nodup_cons.mp hnd).2).1 (by rw [← h]; simp)
          rcases hx with hx | hx <;> rcases hy with hy | hy
          · exact absurd (hx.trans hy.symm) hxy
          · rcases hz with hz | hz
            · exact absurd (hz.trans hx.symm) hzx
            · exact absurd (hz.trans hy.symm) hzy
          · rcases hz with hz | hz
            · exact absurd (hz.trans hy.symm) hzy
            · exact absurd (hz.trans hx.symm) hzx
          · exact absurd (hx.trans hy.symm) hxy
      subst hrest
      rcases hx with hx | hx
      · rcases hy with hy | hy
        · exact absurd (hx.trans hy.symm) hxy
        · left; rw [hx, hy]
      · rcases hy with hy | hy
        · right; rw [hx, hy]
        · exact absurd (hx.trans hy.symm) hxy

/-- Connectivity restricts to any subset of the connected vertex set. -/
theorem connectsB_subset {es : List (V × V)} {S S' : List V}
    (hc : connectsB es S' = true) (hsub : ∀ v ∈ S, v ∈ S') :
    connectsB es S = true := by
  cases S with
  | nil => rfl
  | cons s₀ t =>
    rw [connectsB_cons_iff]
    intro v hv
    exact connectsB_reach hc (hsub s₀ (List.mem_cons_self _ _)) (hsub v hv)

/-- A terminal set of size ≥ 2 holds a second terminal distinct from any
given one. -/
theorem exists_other_term {T : List V} (hnd : T.Nodup) (hlen : 2 ≤ T.length)
    (t : V) : ∃ t', t' ∈ T ∧ t' ≠ t := by
  cases T with
  | nil => simp at hlen
  | cons x s =>
    cases s with
    | nil => simp at hlen
    | cons y s' =>
      by_cases hx : t = x
      · refine ⟨y, by simp, ?_⟩
        intro h
        rw [hx] at h
        exact (List.nodup_cons.mp hnd).1 (by rw [← h]; simp)
      · exact ⟨x, by simp, fun h => hx h.symm⟩

theorem ok_inj {x : Except SError SResult} {r r' : SResult}
    (h1 : x = .ok r) (h2 : x = .ok r') : r = r' := by
  rw [h1] at h2
  exact Except.ok.inj h2

/-- Every edge of a selected spanning structure of an expansion is a real,
well-formed edge of the graph, and the structure connects its target set. -/
theorem bestSpan_tree_props {g : WGraph} (hg : validGraphB g = true)
    {es : List (V × V)} {S' : List V} {tr : List (V × V × ℚ)}
    (htr : bestSpan (fun e => ((e.2.2 : ℚ) : Qinf)) (fun e => (e.1, e.2.1))
      (unionEdges g es) S' = some tr) :
    List.Sublist tr (unionEdges g es) ∧
    connectsB (tr.map (fun e => (e.1, e.2.1))) S' = true ∧
    (∀ e ∈ tr, ewt g e.1 e.2.1 = some e.2.2 ∧ e.1 ≠ e.2.1 ∧
      e.1 ∈ g.verts ∧ e.2.1 ∈ g.verts ∧ 0 ≤ e.2.2) := by
  obtain ⟨hsl, hc⟩ := bestSpan_mem_filter htr
  exact ⟨hsl, hc, fun e he => unionEdges_props hg (hsl.subset he)⟩

/-- A selected spanning structure of an expansion is acyclic: no edge can be
rerouted through the remaining ones. -/
theorem bestSpan_tree_acyclic {g : WGraph} (hg : validGraphB g = true)
    {es : List (V × V)} {S' : List V} {tr : List (V × V × ℚ)}
    (htr : bestSpan (fun e => ((e.2.2 : ℚ) : Qinf)) (fun e => (e.1, e.2.1))
      (unionEdges g es) S' = some tr) :
    ∀ e ∈ tr, reachB ((tr.erase e).map (fun f => (f.1, f.2.1))) e.1 e.2.1 = false := by
  have hw : ∀ a ∈ unionEdges g es, (0 : Qinf) ≤ ((a.2.2 : ℚ) : Qinf) := by
    intro a ha
    exact_mod_cast (unionEdges_props hg ha).2.2.2.2
  have hbr := bestSpan_bridge hw htr
  intro e he
  have hnr := hbr e he
  cases hrb : reachB ((tr.erase e).map (fun f => (f.1, f.2.1))) e.1 e.2.1 with
  | false => rfl
  | true => exact absurd ((reachB_iff _ _ _).mp hrb) hnr

/-- The auxiliary MST is acyclic. -/
theorem mst_acyclic {g : WGraph} (hw : ∀ e ∈ g.edges, 0 ≤ e.2.2) {S : List V}
    {es : List (V × V)} (h : mst g S = some es) :
    ∀ q ∈ es, reachB (es.erase q) q.1 q.2 = false := by
  have hw' : ∀ q ∈ pairsOf S, (0 : Qinf) ≤ dist g q.1 q.2 :=
    fun q _ => dist_nonneg hw q.1 q.2
  have hbr := bestSpan_bridge hw' h
  intro q hq
  have hnr := hbr q hq
  rw [List.map_id] at hnr
  cases hrb : reachB (es.erase q) q.1 q.2 with
  | false => rfl
  | true => exact absurd ((reachB_iff _ _ _).mp hrb) hnr

/-- In a structure connecting `S'`, every vertex of `S'` (but one of at least
two) is an endpoint of some edge. -/
theorem terminal_incident {S' : List V} {tr : List (V × V × ℚ)}
    (hc : connectsB (tr.map (fun e => (e.1, e.2.1))) S' = true)
    {t t' : V} (ht : t ∈ S') (ht' : t' ∈ S') (hne : t' ≠ t) :
    ∃ e ∈ tr, e.1 = t ∨ e.2.1 = t := by
  have hr : Reach (tr.map (fun e => (e.1, e.2.1))) t' t := connectsB_reach hc ht' ht
  rcases hr.incident hne with ⟨q, hq, hor⟩
  rcases List.mem_map.mp hq with ⟨e, he, rfl⟩
  rcases hor with h | h
  · exact ⟨e, he, Or.inl h⟩
  · exact ⟨e, he, Or.inr h⟩

theorem treeVerts_mono {g : WGraph} {T : List V} {tr U : List (V × V × ℚ)}
    (hsub : ∀ e ∈ tr, e ∈ U) : ∀ v ∈ treeVerts g T tr, v ∈ treeVerts g T U := by
  intro v hv
  rcases mem_treeVerts.mp hv with ⟨hvv, hvT | ⟨e, he, hor⟩⟩
  · exact mem_treeVerts.mpr ⟨hvv, Or.inl hvT⟩
  · exact mem_treeVerts.mpr ⟨hvv, Or.inr ⟨e, hsub e he, hor⟩⟩

/-! ### The claims -/

/-- **C1**. Modelled from the spec: for every valid weighted connected graph
and every valid terminal set (size ≥ 2, all terminals present), the solve
operation run in parallel with any worker count ≥ 1 and run sequentially both
succeed and return Steiner trees of equal total weight. -/
theorem C1_parallel_equals_sequential {g : WGraph} {T : List V}
    (hg : validGraphB g = true) (ht : validTermsB g T = true)
    (N : ℕ) (hN : 1 ≤ N) (n₀ : ℕ) :
    ∃ rp rs : SResult,
      steinertree g T true N = .ok rp ∧
      steinertree g T false n₀ = .ok rs ∧
      rp.weight = rs.weight :=
  ⟨solveCore g T (bestIdxSeq g T), solveCore g T (bestIdxSeq g T),
    steinertree_ok hg ht true N, steinertree_ok hg ht false n₀, rfl⟩

/-- Witness for C1: on the triangle graph with terminals `{0, 2}`, the
parallel run with 2 workers and the sequential run agree. -/
theorem C1_parallel_equals_sequential_wit :
    ∃ rp rs : SResult,
      steinertree triGraph [0, 2] true 2 = .ok rp ∧
      steinertree triGraph [0, 2] false 0 = .ok rs ∧
      rp.weight = rs.weight :=
  C1_parallel_equals_sequential (by with_unfolding_all rfl) (by with_unfolding_all rfl)
    2 (by decide) 0

/-- **C3**. Modelled from the spec: for every worker count `N` with
`1 ≤ N ≤ 2^(|V|-|terminals|)`, the coordinator's slicing of the subset index
range `[0, 2^(|V|-|terminals|))` yields exactly `N` contiguous partitions
whose concatenation is the full index range, duplicate-free — every subset
index is covered exactly once, with no overlaps and no gaps. -/
theorem C3_partition_complete (g : WGraph) (T : List V) (N : ℕ)
    (h1 : 1 ≤ N) (h2 : N ≤ subsetCount g T) :
    (sliceIdx 0 (subsetCount g T) N).length = N ∧
    (sliceIdx 0 (subsetCount g T) N).flatten = List.range (subsetCount g T) ∧
    (sliceIdx 0 (subsetCount g T) N).flatten.Nodup ∧
    ∀ i : ℕ, i ∈ (sliceIdx 0 (subsetCount g T) N).flatten ↔ i < subsetCount g T := by
  have hf := sliceIdx_flatten N 0 (subsetCount g T) h1
  rw [← List.range_eq_range'] at hf
  refine ⟨sliceIdx_length N 0 _, hf, ?_, ?_⟩
  · rw [hf]
    exact List.nodup_range _
  · intro i
    rw [hf]
    exact List.mem_range

/-- Witness for C3: the triangle graph with terminals `{0, 2}` has a
2-element subset space, sliced into 2 partitions. -/
theorem C3_partition_complete_wit :
    (sliceIdx 0 (subsetCount triGraph [0, 2]) 2).length = 2 ∧
    (sliceIdx 0 (subsetCount triGraph [0, 2]) 2).flatten =
      List.range (subsetCount triGraph [0, 2]) ∧
    (sliceIdx 0 (subsetCount triGraph [0, 2]) 2).flatten.Nodup ∧
    ∀ i : ℕ, i ∈ (sliceIdx 0 (subsetCount triGraph [0, 2]) 2).flatten ↔
      i < subsetCount triGraph [0, 2] :=
  C3_partition_complete triGraph [0, 2] 2 (by decide) (by decide)

/-- **C5**. Modelled from the spec: the solve operation answers
`InvalidGraph` on malformed or disconnected input, `InvalidTerminals` (on a
well-formed graph) when the terminal set is invalid — fewer than 2 terminals
or a terminal absent —, and never returns a result on invalid input: both
errors abort the solve before any search work, with no partial result. -/
theorem C5_eager_validation (g : WGraph) (T : List V) (par : Bool) (n : ℕ) :
    (validGraphB g = false → steinertree g T par n = .error .invalidGraph) ∧
    (validGraphB g = true → validTermsB g T = false →
      steinertree g T par n = .error .invalidTerminals) ∧
    (∀ r : SResult, steinertree g T par n = .ok r →
      validGraphB g = true ∧ validTermsB g T = true) := by
  refine ⟨?_, ?_, ?_⟩
  · intro h
    unfold steinertree
    rw [if_neg (by simp [h])]
  · intro h1 h2
    unfold steinertree
    rw [if_pos h1, if_neg (by simp [h2])]
  · intro r h
    by_cases h1 : validGraphB g = true
    · by_cases h2 : validTermsB g T = true
      · exact ⟨h1, h2⟩
      · unfold steinertree at h
        rw [if_pos h1, if_neg h2] at h
        exact absurd h (by simp)
    · unfold steinertree at h
      rw [if_neg h1] at h
      exact absurd h (by simp)

/-- **C6**. Modelled from the spec: the solve operation is a deterministic
function of the graph and terminal set: any two runs, whatever their
parallelism flags and worker counts, return identical results — in
particular results of identical total weight. -/
theorem C6_deterministic (g : WGraph) (T : List V) (p₁ p₂ : Bool) (n₁ n₂ : ℕ) :
    steinertree g T p₁ n₁ = steinertree g T p₂ n₂ :=
  steinertree_run_irrelevant g T p₁ p₂ n₁ n₂

/-- **C2**. Modelled from the spec: on every valid input (well-formed
connected graph, duplicate-free terminal set of size ≥ 2, all terminals
present), the tree returned by the solve operation is connected over its
vertex set, acyclic (no edge is reachable through the others), touches every
terminal with degree ≥ 1 (so its vertex set contains every terminal), draws
each edge from the original graph with its original weight, and its reported
total weight equals the sum of its edge weights. -/
theorem C2_tree_invariants {g : WGraph} {T : List V} {r : SResult}
    (hg : validGraphB g = true) (ht : validTermsB g T = true) (hnd : T.Nodup)
    (par : Bool) (n : ℕ) (hr : steinertree g T par n = .ok r) :
    connectsB (r.tree.map (fun e => (e.1, e.2.1))) (treeVerts g T r.tree) = true ∧
    (∀ e ∈ r.tree,
      reachB ((r.tree.erase e).map (fun f => (f.1, f.2.1))) e.1 e.2.1 = false) ∧
    (∀ t ∈ T, ∃ e ∈ r.tree, e.1 = t ∨ e.2.1 = t) ∧
    (∀ e ∈ r.tree, ∃ f ∈ g.edges, f.2.2 = e.2.2 ∧
      ((f.1 = e.1 ∧ f.2.1 = e.2.1) ∨ (f.1 = e.2.1 ∧ f.2.1 = e.1))) ∧
    r.weight = (r.tree.map (fun e => ((e.2.2 : ℚ) : Qinf))).sum := by
  rcases solve_result hg ht par n with ⟨i, es, tr, hseq, hir, hmin, hmst, htr, hok⟩
  have hreq : r = { tree := tr, weight := score g (candSet g T i) } := ok_inj hr hok
  subst hreq
  obtain ⟨hslU, hcS', hprops⟩ := bestSpan_tree_props hg htr
  refine ⟨?_, ?_, ?_, ?_, ?_⟩
  · exact connectsB_subset hcS' (treeVerts_mono (fun e he => hslU.subset he))
  · exact bestSpan_tree_acyclic hg htr
  · intro t htT
    have htS' : t ∈ treeVerts g T (unionEdges g es) :=
      mem_treeVerts.mpr ⟨validTerms_mem ht t htT, Or.inl htT⟩
    obtain ⟨t', ht'T, hne⟩ := exists_other_term hnd (validTerms_len ht) t
    have ht'S' : t' ∈ treeVerts g T (unionEdges g es) :=
      mem_treeVerts.mpr ⟨validTerms_mem ht t' ht'T, Or.inl ht'T⟩
    exact terminal_incident hcS' htS' ht'S' hne
  · intro e he
    exact ewt_mem (hprops e he).1
  · exact weight_eq_treeWeight hg ht hmin hmst htr

/-- Witness for C2: the invariants at the solved triangle instance. -/
theorem C2_tree_invariants_wit :
    ∃ r : SResult,
      steinertree triGraph [0, 2] false 0 = .ok r ∧
      (connectsB (r.tree.map (fun e => (e.1, e.2.1)))
        (treeVerts triGraph [0, 2] r.tree) = true ∧
      (∀ e ∈ r.tree,
        reachB ((r.tree.erase e).map (fun f => (f.1, f.2.1))) e.1 e.2.1 = false) ∧
      (∀ t ∈ ([0, 2] : List V), ∃ e ∈ r.tree, e.1 = t ∨ e.2.1 = t) ∧
      (∀ e ∈ r.tree, ∃ f ∈ triGraph.edges, f.2.2 = e.2.2 ∧
        ((f.1 = e.1 ∧ f.2.1 = e.2.1) ∨ (f.1 = e.2.1 ∧ f.2.1 = e.1))) ∧
      r.weight = (r.tree.map (fun e => ((e.2.2 : ℚ) : Qinf))).sum) := by
  have h1 : steinertree triGraph [0, 2] false 0 =
      .ok { tree := [(0, 1, 1), (1, 2, 1)], weight := ((2 : ℚ) : Qinf) } := by
    with_unfolding_all rfl
  exact ⟨_, h1, C2_tree_invariants (by with_unfolding_all rfl)
    (by with_unfolding_all rfl) (by decide) false 0 h1⟩

/-- **C4**. Modelled from the spec: for every valid graph and a terminal set
of exactly two distinct vertices, the weight reported by the solve operation
equals the shortest-path distance between the two terminals. -/
theorem C4_two_terminal_shortest_path {g : WGraph} {t₁ t₂ : V} {r : SResult}
    (hg : validGraphB g = true) (ht : validTermsB g [t₁, t₂] = true)
    (hne : t₁ ≠ t₂) (par : Bool) (n : ℕ)
    (hr : steinertree g [t₁, t₂] par n = .ok r) :
    r.weight = dist g t₁ t₂ := by
  rcases solve_result hg ht par n with ⟨i, es, tr, hseq, hir, hmin, hmst, htr, hok⟩
  have hreq : r = { tree := tr, weight := score g (candSet g [t₁, t₂] i) } := ok_inj hr hok
  subst hreq
  show score g (candSet g [t₁, t₂] i) = dist g t₁ t₂
  have h0r : (0 : ℕ) ∈ List.range (subsetCount g [t₁, t₂]) := by
    rw [List.mem_range]
    exact Nat.pos_pow_of_pos _ (by norm_num)
  have hup : score g (candSet g [t₁, t₂] i) ≤ score g (candSet g [t₁, t₂] 0) :=
    hmin 0 h0r
  have ht₁v : t₁ ∈ g.verts := validTerms_mem ht t₁ (by simp)
  have ht₂v : t₂ ∈ g.verts := validTerms_mem ht t₂ (by simp)
  have hmemL : ∀ v, v ∈ candSet g [t₁, t₂] 0 ↔ v = t₁ ∨ v = t₂ := by
    intro v
    rw [candSet_zero]
    constructor
    · rintro ⟨_, hv⟩
      simpa using hv
    · rintro (rfl | rfl)
      · exact ⟨ht₁v, by simp⟩
      · exact ⟨ht₂v, by simp⟩
  have hLnd : (candSet g [t₁, t₂] 0).Nodup := candSet_nodup (validGraph_nodup hg) _ _
  have hscore0 : score g (candSet g [t₁, t₂] 0) ≤ dist g t₁ t₂ := by
    rcases list_pair_eq hLnd hne hmemL with hL | hL
    · rw [hL]
      refine le_trans (@score_le_of_connects g [t₁, t₂] (pairsOf [t₁, t₂])
        (List.Sublist.refl _) (pairsOf_connects _)) ?_
      have hp : pairsOf [t₁, t₂] = [(t₁, t₂)] := rfl
      rw [hp]
      simp
    · rw [hL]
      refine le_trans (@score_le_of_connects g [t₂, t₁] (pairsOf [t₂, t₁])
        (List.Sublist.refl _) (pairsOf_connects _)) ?_
      have hp : pairsOf [t₂, t₁] = [(t₂, t₁)] := rfl
      rw [hp]
      simp [dist_symm g t₂ t₁]
  obtain ⟨hslU, hcS', hprops⟩ := bestSpan_tree_props hg htr
  have ht₁S' : t₁ ∈ treeVerts g [t₁, t₂] (unionEdges g es) :=
    mem_treeVerts.mpr ⟨ht₁v, Or.inl (by simp)⟩
  have ht₂S' : t₂ ∈ treeVerts g [t₁, t₂] (unionEdges g es) :=
    mem_treeVerts.mpr ⟨ht₂v, Or.inl (by simp)⟩
  have hR : Reach (tr.map (fun e => (e.1, e.2.1))) t₁ t₂ :=
    connectsB_reach hcS' ht₁S' ht₂S'
  have hend : ∀ q ∈ tr.map (fun e => (e.1, e.2.1)), q.1 ∈ g.verts ∧ q.2 ∈ g.verts := by
    intro q hq
    rcases List.mem_map.mp hq with ⟨e, he, rfl⟩
    exact ⟨(hprops e he).2.2.1, (hprops e he).2.2.2.1⟩
  have hedge : ∀ q ∈ tr.map (fun e => (e.1, e.2.1)), hasEdge g q.1 q.2 = true := by
    intro q hq
    rcases List.mem_map.mp hq with ⟨e, he, rfl⟩
    unfold hasEdge
    rw [(hprops e he).1]
    rfl
  rcases reach_exists_allPath ht₁v hend hedge hR with ⟨p, hpmem, hchain⟩
  have hcov : ∀ q ∈ p.zip p.tail, ∃ e ∈ tr,
      (e.1 = q.1 ∧ e.2.1 = q.2) ∨ (e.1 = q.2 ∧ e.2.1 = q.1) := by
    intro q hq
    rcases zip_pairs_of_chain p hchain q hq with h | h
    · rcases List.mem_map.mp h with ⟨e, he, hee⟩
      exact ⟨e, he, Or.inl ⟨congrArg Prod.fst hee, congrArg Prod.snd hee⟩⟩
    · rcases List.mem_map.mp h with ⟨e, he, hee⟩
      exact ⟨e, he, Or.inr ⟨congrArg Prod.fst hee, congrArg Prod.snd hee⟩⟩
  have hple := pathWeight_le_treeSum p tr (isPath_of_mem_allPaths hpmem).2.2.1 hcov
    (fun e he => (hprops e he).1)
    (fun e he => by exact_mod_cast (hprops e he).2.2.2.2)
  have hweq : score g (candSet g [t₁, t₂] i) =
      (tr.map (fun e => ((e.2.2 : ℚ) : Qinf))).sum :=
    weight_eq_treeWeight hg ht hmin hmst htr
  refine le_antisymm (le_trans hup hscore0) ?_
  rw [hweq]
  exact le_trans (dist_le_pathWeight hpmem) hple

/-- Witness for C4: on the triangle, the reported weight 2 is the shortest
0–2 distance. -/
theorem C4_two_terminal_shortest_path_wit :
    ({ tree := [((0 : V), (1 : V), (1 : ℚ)), (1, 2, 1)],
       weight := ((2 : ℚ) : Qinf) } : SResult).weight = dist triGraph 0 2 :=
  C4_two_terminal_shortest_path (by with_unfolding_all rfl) (by with_unfolding_all rfl)
    (by decide) false 0 (by with_unfolding_all rfl)

/-- **C8**. Modelled from the spec: on every valid input the empty candidate
subset — index 0, whose vertex set is the terminal set alone — is in the
evaluated range, the builder produces a valid spanning structure for it (an
acyclic connecting sub-structure of the terminal-only auxiliary graph), and
the returned weight is at most that terminal-only auxiliary MST weight. -/
theorem C8_terminal_only_fallback {g : WGraph} {T : List V} {r : SResult}
    (hg : validGraphB g = true) (ht : validTermsB g T = true)
    (par : Bool) (n : ℕ) (hr : steinertree g T par n = .ok r) :
    0 ∈ List.range (subsetCount g T) ∧
    (∀ v, v ∈ candSet g T 0 ↔ v ∈ g.verts ∧ v ∈ T) ∧
    (∃ es₀, mst g (candSet g T 0) = some es₀ ∧
      List.Sublist es₀ (pairsOf (candSet g T 0)) ∧
      connectsB es₀ (candSet g T 0) = true ∧
      ∀ q ∈ es₀, reachB (es₀.erase q) q.1 q.2 = false) ∧
    r.weight ≤ score g (candSet g T 0) := by
  rcases solve_result hg ht par n with ⟨i, es, tr, hseq, hir, hmin, hmst, htr, hok⟩
  have hreq : r = { tree := tr, weight := score g (candSet g T i) } := ok_inj hr hok
  subst hreq
  have h0r : (0 : ℕ) ∈ List.range (subsetCount g T) := by
    rw [List.mem_range]
    exact Nat.pos_pow_of_pos _ (by norm_num)
  refine ⟨h0r, candSet_zero g T, ?_, hmin 0 h0r⟩
  rcases Option.isSome_iff_exists.mp (mst_isSome g (candSet g T 0)) with ⟨es₀, hes₀⟩
  obtain ⟨hsl₀, hc₀⟩ := mst_spec hes₀
  exact ⟨es₀, hes₀, hsl₀, hc₀, mst_acyclic (validGraph_wnonneg hg) hes₀⟩

/-- Witness for C8: the fallback guarantee at the solved triangle instance. -/
theorem C8_terminal_only_fallback_wit :
    0 ∈ List.range (subsetCount triGraph [0, 2]) ∧
    (∀ v, v ∈ candSet triGraph [0, 2] 0 ↔ v ∈ triGraph.verts ∧ v ∈ [0, 2]) ∧
    (∃ es₀, mst triGraph (candSet triGraph [0, 2] 0) = some es₀ ∧
      List.Sublist es₀ (pairsOf (candSet triGraph [0, 2] 0)) ∧
      connectsB es₀ (candSet triGraph [0, 2] 0) = true ∧
      ∀ q ∈ es₀, reachB (es₀.erase q) q.1 q.2 = false) ∧
    ({ tree := [((0 : V), (1 : V), (1 : ℚ)), (1, 2, 1)],
       weight := ((2 : ℚ) : Qinf) } : SResult).weight
      ≤ score triGraph (candSet triGraph [0, 2] 0) :=
  C8_terminal_only_fallback (by with_unfolding_all rfl) (by with_unfolding_all rfl)
    false 0 (by with_unfolding_all rfl)

/-- **C9**. Modelled from the spec: on the 4-vertex cycle A=0, B=1, C=2, D=3
with edges A–B(1), B–C(1), C–D(1), D–A(1), A–C(3) and terminals {A, C}, the
solve operation (sequential and parallel alike) returns the path A–B–C of
total weight 2 — not 3, and using no edge at D. -/
theorem C9_cycle_concrete :
    steinertree cycleGraph [0, 2] false 0 =
      .ok { tree := [(0, 1, 1), (1, 2, 1)], weight := ((2 : ℚ) : Qinf) } ∧
    steinertree cycleGraph [0, 2] true 4 =
      .ok { tree := [(0, 1, 1), (1, 2, 1)], weight := ((2 : ℚ) : Qinf) } ∧
    decide (((2 : ℚ) : Qinf) = ((3 : ℚ) : Qinf)) = false ∧
    ([((0 : V), (1 : V), (1 : ℚ)), (1, 2, 1)].all
      (fun e => !(e.1 == 3) && !(e.2.1 == 3))) = true :=
  ⟨by with_unfolding_all rfl, by with_unfolding_all rfl,
    by with_unfolding_all rfl, by with_unfolding_all rfl⟩

/-- **C7**. Modelled from the spec: for every valid graph and terminal set,
adding a previously absent edge whose weight exceeds the weight of the
current optimal tree never changes the total weight returned by the solve
operation. -/
theorem C7_heavy_edge_no_change {g : WGraph} {T : List V} {a b : V} {W : ℚ}
    {r r' : SResult}
    (hg : validGraphB g = true) (ht : validTermsB g T = true)
    (ha : a ∈ g.verts) (hb : b ∈ g.verts) (hab : a ≠ b)
    (hnew : ¬ hasEdge g a b = true)
    (p₁ p₂ : Bool) (n₁ n₂ : ℕ)
    (hr : steinertree g T p₁ n₁ = .ok r)
    (hr' : steinertree (addEdge g a b W) T p₂ n₂ = .ok r')
    (hW : r.weight < ((W : ℚ) : Qinf)) :
    r'.weight = r.weight := by
  rcases solve_result hg ht p₁ n₁ with ⟨i, es, tr, hseq, hir, hmin, hmst, htr, hok⟩
  have hreq : r = { tree := tr, weight := score g (candSet g T i) } := ok_inj hr hok
  have hwr : r.weight = score g (candSet g T i) := by rw [hreq]
  have hge0 : (0 : Qinf) ≤ r.weight := by
    rw [hwr]
    exact score_nonneg (validGraph_wnonneg hg) _
  have hW0 : (0 : ℚ) < W := by
    have := lt_of_le_of_lt hge0 hW
    exact_mod_cast this
  have hg' : validGraphB (addEdge g a b W) = true :=
    validGraphB_addEdge hg ha hb hab hnew (le_of_lt hW0)
  have ht' : validTermsB (addEdge g a b W) T = true := ht
  rcases solve_result hg' ht' p₂ n₂ with ⟨i', es', tr', hseq', hir', hmin', hmst', htr', hok'⟩
  have hreq' := ok_inj hr' hok'
  have hwr'' : r'.weight = score (addEdge g a b W) (candSet (addEdge g a b W) T i') := by
    rw [hreq']
  have hwr' : r'.weight = score (addEdge g a b W) (candSet g T i') := by
    rw [hwr'', candSet_addEdge]
  have hir'' : i ∈ List.range (subsetCount (addEdge g a b W) T) := hir
  have hirg : i' ∈ List.range (subsetCount g T) := hir'
  have hup : r'.weight ≤ r.weight := by
    rw [hwr, hwr']
    calc score (addEdge g a b W) (candSet g T i')
        ≤ score (addEdge g a b W) (candSet g T i) := hmin' i hir''
      _ ≤ score g (candSet g T i) := score_addEdge_le g a b W _
  have hw' : ∀ e ∈ (addEdge g a b W).edges, 0 ≤ e.2.2 := validGraph_wnonneg hg'
  rcases score_addEdge_ge hnew hw' (candSet g T i') with hcase | hcase
  · refine le_antisymm hup ?_
    rw [hwr, hwr']
    exact le_trans (hmin i' hirg) hcase
  · exfalso
    have hcyc : r'.weight < r'.weight :=
      calc r'.weight ≤ r.weight := hup
        _ < ((W : ℚ) : Qinf) := hW
        _ ≤ score (addEdge g a b W) (candSet g T i') := hcase
        _ = r'.weight := hwr'.symm
    exact lt_irrefl _ hcyc

/-- Witness for C7: adding the absent edge 0–2 of weight 10 (heavier than
the optimum 2) to the path graph leaves the returned weight at 2. -/
theorem C7_heavy_edge_no_change_wit :
    ∃ r r' : SResult,
      steinertree pathGraph [0, 2] false 0 = .ok r ∧
      steinertree (addEdge pathGraph 0 2 10) [0, 2] true 2 = .ok r' ∧
      r.weight < ((10 : ℚ) : Qinf) ∧
      r'.weight = r.weight := by
  have h1 : steinertree pathGraph [0, 2] false 0 =
      .ok { tree := [(0, 1, 1), (1, 2, 1)], weight := ((2 : ℚ) : Qinf) } := by
    with_unfolding_all rfl
  have h2 : steinertree (addEdge pathGraph 0 2 10) [0, 2] true 2 =
      .ok { tree := [(0, 1, 1), (1, 2, 1)], weight := ((2 : ℚ) : Qinf) } := by
    with_unfolding_all rfl
  have hlt : ({ tree := [(0, 1, 1), (1, 2, 1)],
                weight := ((2 : ℚ) : Qinf) } : SResult).weight < ((10 : ℚ) : Qinf) := by
    show ((2 : ℚ) : Qinf) < ((10 : ℚ) : Qinf)
    exact_mod_cast (by norm_num : (2 : ℚ) < 10)
  exact ⟨_, _, h1, h2, hlt,
    C7_heavy_edge_no_change (by with_unfolding_all rfl) (by with_unfolding_all rfl)
      (by decide) (by decide) (by decide) (by decide) false true 0 2 h1 h2 hlt⟩

/-- **C10**. Translated from `generate_random_graph` in
`test_parallel_performance.py`, with the externals as oracles: `gs` streams
the draws of `networkx.gnp_random_graph`, connectivity is
`networkx.is_connected`, and `w` streams `random.uniform(weight_range[0],
weight_range[1])`, whose contract is to stay inside the closed range. Every
graph the generator returns is connected, and every edge weight lies in the
closed interval `[lo, hi]`. -/
theorem C10_random_graph_valid (gs : ℕ → UGraph) (w : ℕ → ℕ → ℚ) (fuel : ℕ)
    (lo hi : ℚ) {G : WGraph}
    (hw : ∀ k j, lo ≤ w k j ∧ w k j ≤ hi)
    (h : generate_random_graph gs w fuel = some G) :
    connectsB (G.edges.map (fun e => (e.1, e.2.1))) G.verts = true ∧
    ∀ e ∈ G.edges, lo ≤ e.2.2 ∧ e.2.2 ≤ hi := by
  unfold generate_random_graph at h
  cases hf : (List.range fuel).find? (fun k =>
      connectsB (gs k).uedges (List.range (gs k).n)) with
  | none =>
    rw [hf] at h
    exact absurd h (by simp)
  | some k =>
    rw [hf] at h
    have hk0 := List.find?_some hf
    have hk : connectsB (gs k).uedges (List.range (gs k).n) = true := hk0
    have hG : G = { verts := List.range (gs k).n,
                    edges := (gs k).uedges.enum.map (fun q => (q.2.1, q.2.2, w k q.1)) } := by
      have h' := Option.some_inj.mp h
      exact h'.symm
    subst hG
    constructor
    · show connectsB (((gs k).uedges.enum.map
        (fun q => (q.2.1, q.2.2, w k q.1))).map (fun e => (e.1, e.2.1)))
        (List.range (gs k).n) = true
      rw [List.map_map]
      have hcomp : ((fun e : V × V × ℚ => (e.1, e.2.1)) ∘
          (fun q : ℕ × (ℕ × ℕ) => (q.2.1, q.2.2, w k q.1)))
          = fun q : ℕ × (ℕ × ℕ) => q.2 := by
        funext q
        rfl
      rw [hcomp]
      have henum : (gs k).uedges.enum.map (fun q : ℕ × (ℕ × ℕ) => q.2) = (gs k).uedges :=
        List.enum_map_snd _
      rw [henum]
      exact hk
    · intro e he
      rcases List.mem_map.mp he with ⟨q, hq, rfl⟩
      exact hw k q.1

/-- Witness for C10: a one-shot oracle drawing the connected two-vertex
graph with unit weights inside `[1, 1]`. -/
theorem C10_random_graph_valid_wit :
    connectsB ((WGraph.mk [0, 1] [(0, 1, 1)]).edges.map (fun e => (e.1, e.2.1)))
      (WGraph.mk [0, 1] [(0, 1, 1)]).verts = true ∧
    ∀ e ∈ (WGraph.mk [0, 1] [(0, 1, 1)]).edges, (1 : ℚ) ≤ e.2.2 ∧ e.2.2 ≤ 1 :=
  C10_random_graph_valid (fun _ => UGraph.mk 2 [(0, 1)]) (fun _ _ => 1) 1 1 1
    (fun _ _ => ⟨le_refl 1, le_refl 1⟩) (by with_unfolding_all rfl)

end SteinerNet
